import Mathlib

/-!
Verification of the crawl engine in src/main.py (a single-domain sitemap
crawler).  The program is embedded shallowly:

* URLs are lists of characters (`Url`).
* The functions `urlparse`, `urljoin`, `urlunparse` of Python's
  `urllib.parse` (CPython 3.11), which `main.py` imports and on whose exact
  behaviour the crawler relies, are translated function by function
  (`urlsplit`, `splitparams`, `splitNetloc`, ... below).  The embedding
  assumes URLs contain no square brackets and no characters outside ASCII,
  so the `ValueError` branches of `urlsplit` for bracketed IPv6 hosts and
  non-NFKC netlocs never fire; the WHATWG stripping of control characters,
  tab, CR and LF that `urlsplit` performs is modelled exactly (`cleanUrl`).
* The network is an explicit oracle: `requests.get` on a URL either raises
  a `RequestException` (modelled by `Fetch.err`, covering transport errors
  and timeouts) or yields a response with a final status code (after the
  redirect handling inside `requests`) and a body; the anchor `href`
  attributes that BeautifulSoup would extract from that body are carried
  directly as `List Url`.  `response.raise_for_status()` raises exactly for
  status codes in [400, 600), per the `requests` library.
* `crawl_site` is a fuel-indexed loop (`crawlLoop`) over the crawler state
  (`visited`, `valid_links`, `to_visit`); it also returns the trace of
  observable events (dequeues, HTTP fetches, failure notices printed with
  `print`, and `time.sleep(0.5)` politeness pauses) so that temporal and
  counting properties can be stated.
-/

abbrev Url : Type := List Char

/-! ## Python urllib.parse (CPython 3.11) -/

/-- Characters removed everywhere by `urlsplit` (`_UNSAFE_URL_BYTES_TO_REMOVE`). -/
def unsafeChar (c : Char) : Bool := c = '\t' || c = '\r' || c = '\n'

/-- Membership in `_WHATWG_C0_CONTROL_OR_SPACE` (code points 0 to 32). -/
def controlOrSpace (c : Char) : Bool := decide (c.toNat ≤ 32)

/-- The preprocessing `urlsplit` applies to its `url` argument:
`url.lstrip(_WHATWG_C0_CONTROL_OR_SPACE)` then removal of tab, CR, LF. -/
def cleanUrl (u : List Char) : List Char :=
  (u.dropWhile controlOrSpace).filter (fun c => !unsafeChar c)

/-- The preprocessing `urlsplit` applies to its default `scheme` argument:
`scheme.strip(_WHATWG_C0_CONTROL_OR_SPACE)` then removal of tab, CR, LF. -/
def cleanScheme (s : List Char) : List Char :=
  (((s.dropWhile controlOrSpace).reverse.dropWhile controlOrSpace).reverse).filter
    (fun c => !unsafeChar c)

/-- Split a list at the first occurrence of `c`:
`some (before, after)` when `c` occurs, `none` otherwise. -/
def splitAtChar (c : Char) : List Char → Option (List Char × List Char)
  | [] => none
  | a :: as =>
    if a = c then some ([], as)
    else (splitAtChar c as).map (fun p => (a :: p.1, p.2))

/-- Split a list at the last occurrence of `c`. -/
def splitAtLastChar (c : Char) : List Char → Option (List Char × List Char)
  | [] => none
  | a :: as =>
    match splitAtLastChar c as with
    | some p => some (a :: p.1, p.2)
    | none => if a = c then some ([], as) else none

def ascii_letters : List Char :=
  "abcdefghijklmnopqrstuvwxyzABCDEFGHIJKLMNOPQRSTUVWXYZ".toList

/-- Python `urllib.parse.scheme_chars`. -/
def scheme_chars : List Char :=
  "abcdefghijklmnopqrstuvwxyzABCDEFGHIJKLMNOPQRSTUVWXYZ0123456789+-.".toList

/-- The scheme test of `urlsplit`: first character is an ASCII letter
(`url[0].isascii() and url[0].isalpha()`) and every character before the
first colon is in `scheme_chars`. -/
def validScheme : List Char → Bool
  | [] => false
  | a :: as => ascii_letters.elem a && as.all (fun c => scheme_chars.elem c)

/-- The scheme-splitting step of `urlsplit`: if the text before the first
colon is a valid scheme, return it lowercased together with the remainder;
otherwise no scheme is split off. -/
def splitScheme (u : List Char) : List Char × List Char :=
  match splitAtChar ':' u with
  | none => ([], u)
  | some (pre, rest) =>
    if validScheme pre then (pre.map Char.toLower, rest) else ([], u)

/-- Delimiters ending the netloc in `_splitnetloc`. -/
def isNetlocEnd (c : Char) : Bool := c = '/' || c = '?' || c = '#'

/-- The netloc-splitting step of `urlsplit`: when the remainder starts with
`//`, the netloc extends to the first of `/`, `?`, `#` (Python
`_splitnetloc(url, 2)`). -/
def splitNetloc (u : List Char) : List Char × List Char :=
  if u.take 2 = ['/', '/'] then
    ((u.drop 2).takeWhile (fun c => !isNetlocEnd c),
     (u.drop 2).dropWhile (fun c => !isNetlocEnd c))
  else ([], u)

/-- Split at the first occurrence of `c`, returning the whole list and `[]`
when `c` does not occur (Python `url.split(c, 1)` guarded by `c in url`). -/
def splitOnFirst (c : Char) (u : List Char) : List Char × List Char :=
  match splitAtChar c u with
  | none => (u, [])
  | some (pre, post) => (pre, post)

structure SplitResult where
  scheme : List Char
  netloc : List Char
  path : List Char
  query : List Char
  fragment : List Char
deriving DecidableEq, Repr

structure ParseResult where
  scheme : List Char
  netloc : List Char
  path : List Char
  params : List Char
  query : List Char
  fragment : List Char
deriving DecidableEq, Repr

/-- Python `urllib.parse.urlsplit(url, scheme=default)` with
`allow_fragments=True` (the crawler never passes `allow_fragments`). -/
def urlsplit (default : List Char) (url : List Char) : SplitResult :=
  let url0 := cleanUrl url
  let s := (splitScheme url0).1
  let rest1 := (splitScheme url0).2
  let scheme := if s = [] then cleanScheme default else s
  let netloc := (splitNetloc rest1).1
  let rest2 := (splitNetloc rest1).2
  let rest3 := (splitOnFirst '#' rest2).1
  let fragment := (splitOnFirst '#' rest2).2
  let path := (splitOnFirst '?' rest3).1
  let query := (splitOnFirst '?' rest3).2
  { scheme := scheme, netloc := netloc, path := path, query := query, fragment := fragment }

/-- Python `urllib.parse.uses_params`. -/
def uses_params : List (List Char) :=
  ["", "ftp", "hdl", "prospero", "http", "imap", "https", "shttp", "rtsp",
   "rtsps", "rtspu", "sip", "sips", "mms", "sftp", "tel"].map String.toList

/-- Python `urllib.parse.uses_relative`. -/
def uses_relative : List (List Char) :=
  ["", "ftp", "http", "gopher", "nntp", "imap", "wais", "file", "https",
   "shttp", "mms", "prospero", "rtsp", "rtsps", "rtspu", "sftp", "svn",
   "svn+ssh", "ws", "wss"].map String.toList

/-- Python `urllib.parse.uses_netloc`. -/
def uses_netloc : List (List Char) :=
  ["", "ftp", "http", "gopher", "nntp", "telnet", "imap", "wais", "file",
   "mms", "https", "shttp", "snews", "prospero", "rtsp", "rtsps", "rtspu",
   "rsync", "svn", "svn+ssh", "sftp", "nfs", "git", "git+ssh", "ws",
   "wss"].map String.toList

/-- Python `urllib.parse._splitparams(url)`: split `;params` off the last
path segment (off the whole path when it contains no slash).  The caller
guards the call with `';' in url`. -/
def splitparams (url : List Char) : List Char × List Char :=
  if ('/' : Char) ∈ url then
    match splitAtLastChar '/' url with
    | some (pre, post) =>
      match splitAtChar ';' post with
      | some (a, b) => (pre ++ '/' :: a, b)
      | none => (url, [])
    | none => (url, [])
  else
    match splitAtChar ';' url with
    | some (a, b) => (a, b)
    | none => (url, [])

/-- Python `urllib.parse.urlparse(url, scheme=default)`. -/
def urlparseD (default : List Char) (url : List Char) : ParseResult :=
  let r := urlsplit default url
  if r.scheme ∈ uses_params ∧ (';' : Char) ∈ r.path then
    ⟨r.scheme, r.netloc, (splitparams r.path).1, (splitparams r.path).2, r.query, r.fragment⟩
  else
    ⟨r.scheme, r.netloc, r.path, [], r.query, r.fragment⟩

/-- Python `urllib.parse.urlparse(url)` with the default empty scheme, as
called at lines 30, 48 and 85 of main.py. -/
def urlparse (url : List Char) : ParseResult := urlparseD [] url

/-- Python `urllib.parse.urlunsplit`. -/
def urlunsplit (scheme netloc path query fragment : List Char) : List Char :=
  let url := path
  let url :=
    if netloc ≠ [] ∨ (scheme ≠ [] ∧ scheme ∈ uses_netloc ∧ url.take 2 ≠ ['/', '/']) then
      let url := if url ≠ [] ∧ url.take 1 ≠ ['/'] then '/' :: url else url
      '/' :: '/' :: (netloc ++ url)
    else url
  let url := if scheme ≠ [] then scheme ++ ':' :: url else url
  let url := if query ≠ [] then url ++ '?' :: query else url
  if fragment ≠ [] then url ++ '#' :: fragment else url

/-- Python `urllib.parse.urlunparse`. -/
def urlunparse (r : ParseResult) : List Char :=
  let url := if r.params ≠ [] then r.path ++ ';' :: r.params else r.path
  urlunsplit r.scheme r.netloc url r.query r.fragment

/-- Python `str.split('/')` (always returns at least one piece). -/
def splitOnSlash : List Char → List (List Char)
  | [] => [[]]
  | c :: rest =>
    if c = '/' then [] :: splitOnSlash rest
    else
      match splitOnSlash rest with
      | [] => [[c]]
      | p :: ps => (c :: p) :: ps

/-- Python `'/'.join(pieces)`. -/
def joinWithSlash : List (List Char) → List Char
  | [] => []
  | [s] => s
  | s :: rest => s ++ '/' :: joinWithSlash rest

/-- The segment-resolution loop of `urljoin`: `..` pops (ignoring pops from
an empty stack), `.` is skipped, other segments are appended. -/
def resolveSegments (segments : List (List Char)) : List (List Char) :=
  segments.foldl
    (fun acc seg =>
      if seg = ['.', '.'] then acc.dropLast
      else if seg = ['.'] then acc
      else acc ++ [seg])
    []

/-- The assignment `segments[1:-1] = filter(None, segments[1:-1])` of
`urljoin`: drop empty segments, keeping the first and last elements. -/
def filterInner : List (List Char) → List (List Char)
  | [] => []
  | [a] => [a]
  | a :: rest => if a = [] then filterInner rest else a :: filterInner rest

def filterMiddle : List (List Char) → List (List Char)
  | [] => []
  | a :: rest => a :: filterInner rest

/-- Python `urllib.parse.urljoin(base, url)`, as called at line 29 of
main.py. -/
def urljoin (base url : List Char) : List Char :=
  if base = [] then url
  else if url = [] then base
  else
    let b := urlparseD [] base
    let r := urlparseD b.scheme url
    if r.scheme ≠ b.scheme ∨ r.scheme ∉ uses_relative then url
    else if r.scheme ∈ uses_netloc ∧ r.netloc ≠ [] then urlunparse r
    else
      let netloc := if r.scheme ∈ uses_netloc then b.netloc else r.netloc
      if r.path = [] ∧ r.params = [] then
        let query := if r.query = [] then b.query else r.query
        urlunparse ⟨r.scheme, netloc, b.path, b.params, query, r.fragment⟩
      else
        let base_parts := splitOnSlash b.path
        let base_parts :=
          if base_parts.getLast? ≠ some [] then base_parts.dropLast else base_parts
        let segments :=
          if r.path.take 1 = ['/'] then splitOnSlash r.path
          else filterMiddle (base_parts ++ splitOnSlash r.path)
        let resolved := resolveSegments segments
        let resolved :=
          if segments.getLast? = some ['.'] ∨ segments.getLast? = some ['.', '.'] then
            resolved ++ [[]]
          else resolved
        let path := if joinWithSlash resolved = [] then ['/'] else joinWithSlash resolved
        urlunparse ⟨r.scheme, netloc, path, r.params, r.query, r.fragment⟩

/-! ## The crawler (src/main.py) -/

/-- Outcome of `requests.get(url, timeout=10)` followed by
`response.raise_for_status()` as observed by the crawler: `err` models a
raised `requests.RequestException` coming from the transport (connection
error, DNS failure, timeout, invalid URL, too many redirects); `ok status
hrefs` models a delivered response whose final status code is `status` and
whose body, handed to `BeautifulSoup(response.text, "html.parser")`, yields
the anchor `href` attributes `hrefs` (the values of `tag.get("href")` for
the tags found by `soup.find_all("a", href=True)`, in document order).
`raise_for_status` raises `requests.HTTPError`, a `RequestException`, for a
status code in [400, 600) and returns normally otherwise. -/
inductive Fetch where
  | err : Fetch
  | ok : Nat → List Url → Fetch
deriving DecidableEq, Repr

/-- The HTTP collaborator: the (deterministic) response of the network for
each URL the crawler may request. -/
def Oracle : Type := Url → Fetch

/-- True when the `try` block around `requests.get` + `raise_for_status`
raises a `RequestException` for this fetch outcome. -/
def fetchRaises : Fetch → Bool
  | .err => true
  | .ok status _ => decide (400 ≤ status ∧ status < 600)

/-- The normalized form built at line 34 of main.py from a parse result:
`parsed.scheme + "://" + parsed.netloc + parsed.path` (query string,
params and fragment discarded). -/
def cleanedOf (p : ParseResult) : Url :=
  p.scheme ++ ':' :: '/' :: '/' :: (p.netloc ++ p.path)

/-- URL normalization as the spec describes it: reduce a URL to
scheme + "://" + network location + path, i.e. the cleaning main.py
applies to every resolved link. -/
def normalizeUrl (u : Url) : Url := cleanedOf (urlparse u)

/-- Python `set.add`: sets are modelled as duplicate-free lists, insertion
order first-insertion. -/
def insertSet (x : Url) (l : List Url) : List Url :=
  if x ∈ l then l else l ++ [x]

/-- The body of the `for tag in soup.find_all(...)` loop of `fetch_links`
(lines 27-35 of main.py) acting on the accumulated set `links`. -/
def addLink (url base_netloc : Url) (links : List Url) (href : Url) : List Url :=
  let full_url := urljoin url href
  let parsed := urlparse full_url
  if parsed.netloc = base_netloc then insertSet (cleanedOf parsed) links
  else links

/-- `fetch_links(url, base_netloc)` (lines 11-37 of main.py): fetch `url`;
on a `RequestException` (including a 4xx/5xx status raised by
`raise_for_status`) print an error and return the empty collection;
otherwise resolve every anchor `href` against `url`, keep those whose
network location equals `base_netloc`, and return the set of their
cleaned forms. -/
def fetch_links (o : Oracle) (url base_netloc : Url) : List Url :=
  match o url with
  | .err => []
  | .ok status hrefs =>
    if 400 ≤ status ∧ status < 600 then []
    else hrefs.foldl (addLink url base_netloc) []

/-- Observable events of one crawl, in order: a dequeue `to_visit.pop(0)`,
an HTTP request issued by `requests.get` (both the one in the crawl loop
and the one inside `fetch_links`), a failure notice printed by either
`except` branch, and the politeness pause `time.sleep(0.5)`. -/
inductive Event where
  | dequeue : Url → Event
  | fetch : Url → Event
  | emitFailure : Url → Event
  | sleep : Event
deriving DecidableEq, Repr

/-- Events produced by the `try` block of `fetch_links` for its own
`requests.get(url)`: the request itself, then a failure notice when the
fetch raises. -/
def fetchEvents (o : Oracle) (url : Url) : List Event :=
  if fetchRaises (o url) then [Event.fetch url, Event.emitFailure url]
  else [Event.fetch url]

/-- The mutable state of `crawl_site`: `visited` and `valid_links` are
Python sets (duplicate-free lists), `to_visit` is the frontier list. -/
structure CrawlState where
  visited : List Url
  valid_links : List Url
  to_visit : List Url
deriving DecidableEq, Repr

/-- The enqueue loop of lines 74-76 of main.py: append each discovered
link that is neither visited nor already queued, checking membership
against the frontier as it grows. -/
def enqueueNew (visited : List Url) (to_visit : List Url) (links : List Url) : List Url :=
  links.foldl (fun q link => if link ∉ visited ∧ link ∉ q then q ++ [link] else q) to_visit

/-- The `while to_visit:` loop of `crawl_site` (lines 51-78 of main.py),
indexed by fuel; one unit of fuel is spent per loop iteration, and `none`
is returned if the fuel runs out before the frontier empties.  Along with
the final state it returns the trace of observable events.  Note, from the
source: a dequeued URL already in `visited` is skipped with `continue`
(line 55); a failed fetch prints a notice, adds the URL to `visited` only,
and `continue`s (lines 61-64), reaching neither link extraction nor
`time.sleep`; a successful fetch adds the URL to `valid_links` and
`visited`, calls `fetch_links` on the same URL (which performs a second
`requests.get`), enqueues the new links and sleeps 0.5 s. -/
def crawlLoop (o : Oracle) (base_netloc : Url) : Nat → CrawlState → Option (CrawlState × List Event)
  | 0, s => if s.to_visit = [] then some (s, []) else none
  | fuel + 1, s =>
    match s.to_visit with
    | [] => some (s, [])
    | current :: rest =>
      if current ∈ s.visited then
        (crawlLoop o base_netloc fuel ⟨s.visited, s.valid_links, rest⟩).map
          (fun r => (r.1, Event.dequeue current :: r.2))
      else if fetchRaises (o current) then
        (crawlLoop o base_netloc fuel ⟨insertSet current s.visited, s.valid_links, rest⟩).map
          (fun r =>
            (r.1, Event.dequeue current :: Event.fetch current ::
              Event.emitFailure current :: r.2))
      else
        let visited := insertSet current s.visited
        let valid := insertSet current s.valid_links
        let links := fetch_links o current base_netloc
        let q := enqueueNew visited rest links
        (crawlLoop o base_netloc fuel ⟨visited, valid, q⟩).map
          (fun r =>
            (r.1, Event.dequeue current :: Event.fetch current ::
              (fetchEvents o current ++ Event.sleep :: r.2)))

/-- `crawl_site(start_url)` (lines 40-80 of main.py): start from the
frontier `[start_url]` with empty `visited` and `valid_links`, fixing
`base_netloc = urlparse(start_url).netloc`.  The Python function returns
`valid_links`; the embedding returns the whole final state and the event
trace so that properties about `visited` and timing can be stated. -/
def crawl_site (o : Oracle) (start_url : Url) (fuel : Nat) : Option (CrawlState × List Event) :=
  crawlLoop o (urlparse start_url).netloc fuel ⟨[], [], [start_url]⟩

/-- Number of occurrences of an event in a trace. -/
def countEv (e : Event) (l : List Event) : Nat :=
  (l.filter (fun x => x = e)).length

/-- The URLs dequeued over a trace, in order. -/
def dequeuedUrls (l : List Event) : List Url :=
  l.filterMap (fun e => match e with | Event.dequeue u => some u | _ => none)

/-! ## Lemmas about the splitting helpers -/

theorem splitAtChar_eq_none {c : Char} {l : List Char} :
    splitAtChar c l = none ↔ c ∉ l := by
  induction l with
  | nil => simp [splitAtChar]
  | cons a as ih =>
    by_cases hac : a = c
    · subst hac
      simp [splitAtChar]
    · rw [splitAtChar, if_neg hac, Option.map_eq_none', ih]
      simp only [List.mem_cons, not_or]
      constructor
      · intro h
        exact ⟨fun hca => hac hca.symm, h⟩
      · intro h
        exact h.2

theorem splitAtChar_eq_some {c : Char} :
    ∀ {l p q : List Char}, splitAtChar c l = some (p, q) → l = p ++ c :: q ∧ c ∉ p := by
  intro l
  induction l with
  | nil => intro p q h; simp [splitAtChar] at h
  | cons a as ih =>
    intro p q h
    by_cases hac : a = c
    · subst hac
      rw [splitAtChar, if_pos rfl] at h
      simp only [Option.some.injEq, Prod.mk.injEq] at h
      rw [← h.1, ← h.2]
      simp
    · rw [splitAtChar, if_neg hac] at h
      rcases hs : splitAtChar c as with _ | ⟨p', q'⟩
      · rw [hs] at h
        simp at h
      · rw [hs] at h
        simp only [Option.map_some', Option.some.injEq, Prod.mk.injEq] at h
        have hps := ih hs
        rw [← h.1, ← h.2]
        refine ⟨by rw [List.cons_append, ← hps.1], ?_⟩
        intro hm
        rcases List.mem_cons.mp hm with hm | hm
        · exact hac hm.symm
        · exact hps.2 hm

theorem splitAtChar_append {c : Char} :
    ∀ {p : List Char} (q : List Char), c ∉ p → splitAtChar c (p ++ c :: q) = some (p, q) := by
  intro p
  induction p with
  | nil => intro q _; simp [splitAtChar]
  | cons a as ih =>
    intro q hm
    have hac : a ≠ c := fun h => hm (by simp [h])
    have has : c ∉ as := fun h => hm (List.mem_cons_of_mem a h)
    rw [List.cons_append, splitAtChar, if_neg hac, ih q has, Option.map_some']

theorem splitAtLastChar_eq_none {c : Char} {l : List Char} :
    splitAtLastChar c l = none ↔ c ∉ l := by
  induction l with
  | nil => simp [splitAtLastChar]
  | cons a as ih =>
    rw [splitAtLastChar]
    rcases h : splitAtLastChar c as with _ | p
    · have has : c ∉ as := ih.mp h
      by_cases hac : a = c
      · subst hac
        simp
      · rw [if_neg hac]
        simp only [List.mem_cons, not_or]
        constructor
        · intro _
          exact ⟨fun hca => hac hca.symm, has⟩
        · intro _
          trivial
    · have has : c ∈ as := by
        by_contra hn
        rw [ih.mpr hn] at h
        cases h
      simp only [reduceCtorEq, false_iff, List.mem_cons, not_or, not_and, not_not]
      intro _
      exact has

theorem splitAtLastChar_eq_some {c : Char} :
    ∀ {l p q : List Char}, splitAtLastChar c l = some (p, q) → l = p ++ c :: q ∧ c ∉ q := by
  intro l
  induction l with
  | nil => intro p q h; simp [splitAtLastChar] at h
  | cons a as ih =>
    intro p q h
    rw [splitAtLastChar] at h
    rcases hs : splitAtLastChar c as with _ | ⟨p', q'⟩
    · rw [hs] at h
      by_cases hac : a = c
      · rw [if_pos hac] at h
        simp only [Option.some.injEq, Prod.mk.injEq] at h
        rw [← h.1, ← h.2, hac]
        exact ⟨by simp, splitAtLastChar_eq_none.mp hs⟩
      · rw [if_neg hac] at h
        cases h
    · rw [hs] at h
      simp only [Option.some.injEq, Prod.mk.injEq] at h
      have hps := ih hs
      rw [← h.1, ← h.2]
      exact ⟨by rw [List.cons_append, ← hps.1], hps.2⟩

theorem splitAtLastChar_append {c : Char} :
    ∀ (p : List Char) {q : List Char}, c ∉ q → splitAtLastChar c (p ++ c :: q) = some (p, q) := by
  intro p
  induction p with
  | nil =>
    intro q hm
    rw [List.nil_append, splitAtLastChar, splitAtLastChar_eq_none.mpr hm, if_pos rfl]
  | cons a as ih =>
    intro q hm
    rw [List.cons_append, splitAtLastChar, ih hm]

/-! ## Facts about characters and parse components -/

/-- A list of characters free of the bytes `urlsplit` removes. -/
def cleanChars (l : List Char) : Prop := ∀ c ∈ l, unsafeChar c = false

/-- A scheme as produced by `splitScheme`: valid and already lowercased. -/
def schemeOk (s : List Char) : Prop := validScheme s = true ∧ s.map Char.toLower = s

/-- A path on which a further `_splitparams` application (under its `';' in
url` guard) is the identity, as is the case for every path component
`urlparse` returns. -/
def pathNoPendingParams (p : List Char) : Prop :=
  (';' : Char) ∈ p → splitparams p = (p, [])

theorem toLower_scheme_chars :
    ∀ c ∈ scheme_chars, Char.toLower c ∈ scheme_chars ∧
      Char.toLower (Char.toLower c) = Char.toLower c := by decide

theorem toLower_ascii_letters :
    ∀ c ∈ ascii_letters, Char.toLower c ∈ ascii_letters := by decide

theorem ascii_subset_scheme : ∀ c ∈ ascii_letters, c ∈ scheme_chars := by decide

theorem colon_not_scheme_char : (':' : Char) ∉ scheme_chars := by decide

theorem scheme_chars_clean : ∀ c ∈ scheme_chars, unsafeChar c = false := by decide

theorem ascii_letters_not_control : ∀ c ∈ ascii_letters, controlOrSpace c = false := by decide

theorem validScheme_mem {s : List Char} (h : validScheme s = true) :
    ∀ c ∈ s, c ∈ scheme_chars := by
  match s, h with
  | [], h => exact absurd h (by decide)
  | a :: as, h =>
    rw [validScheme, Bool.and_eq_true, List.all_eq_true] at h
    intro c hc
    rcases List.mem_cons.mp hc with hc | hc
    · rw [hc]
      exact ascii_subset_scheme a (List.elem_iff.mp h.1)
    · exact List.elem_iff.mp (h.2 c hc)

theorem validScheme_toLower {s : List Char} (h : validScheme s = true) :
    validScheme (s.map Char.toLower) = true ∧
      (s.map Char.toLower).map Char.toLower = s.map Char.toLower := by
  have hmem := validScheme_mem h
  constructor
  · match s, h with
    | [], h => exact absurd h (by decide)
    | a :: as, h =>
      rw [validScheme, Bool.and_eq_true, List.all_eq_true] at h
      rw [List.map_cons, validScheme, Bool.and_eq_true, List.all_eq_true]
      refine ⟨List.elem_iff.mpr (toLower_ascii_letters a (List.elem_iff.mp h.1)), ?_⟩
      intro c hc
      rcases List.mem_map.mp hc with ⟨d, hd, rfl⟩
      exact List.elem_iff.mpr
        (toLower_scheme_chars d (List.elem_iff.mp (h.2 d hd))).1
  · rw [List.map_map]
    apply List.map_congr_left
    intro c hc
    simp only [Function.comp_apply]
    exact (toLower_scheme_chars c (hmem c hc)).2

theorem takeWhile_append_of_all {p : Char → Bool} :
    ∀ {N P : List Char}, (∀ c ∈ N, p c = true) → (N ++ P).takeWhile p = N ++ P.takeWhile p := by
  intro N
  induction N with
  | nil => intro P _; simp
  | cons a as ih =>
    intro P h
    rw [List.cons_append, List.takeWhile_cons, h a (by simp), if_pos rfl,
      ih (fun c hc => h c (List.mem_cons_of_mem a hc))]
    rfl

theorem dropWhile_append_of_all {p : Char → Bool} :
    ∀ {N P : List Char}, (∀ c ∈ N, p c = true) → (N ++ P).dropWhile p = P.dropWhile p := by
  intro N
  induction N with
  | nil => intro P _; simp
  | cons a as ih =>
    intro P h
    rw [List.cons_append, List.dropWhile_cons, h a (by simp), if_pos rfl]
    exact ih (fun c hc => h c (List.mem_cons_of_mem a hc))

theorem dropWhile_head_false {p : Char → Bool} :
    ∀ {l : List Char} {a : Char} {t : List Char}, l.dropWhile p = a :: t → p a = false := by
  intro l
  induction l with
  | nil => intro a t h; simp at h
  | cons x xs ih =>
    intro a t h
    rw [List.dropWhile_cons] at h
    by_cases hx : p x
    · rw [if_pos hx] at h
      exact ih h
    · rw [if_neg hx] at h
      injection h with h1 _
      rw [← h1]
      simpa using hx

theorem dropWhile_cons_false {p : Char → Bool} {a : Char} {l : List Char}
    (h : p a = false) : (a :: l).dropWhile p = a :: l := by
  rw [List.dropWhile_cons, h]
  simp

theorem splitOnFirst_fst_not_mem (c : Char) (u : List Char) : c ∉ (splitOnFirst c u).1 := by
  rw [splitOnFirst]
  rcases h : splitAtChar c u with _ | ⟨p, q⟩
  · exact splitAtChar_eq_none.mp h
  · exact (splitAtChar_eq_some h).2

theorem mem_splitOnFirst_fst {a c : Char} {u : List Char}
    (h : a ∈ (splitOnFirst c u).1) : a ∈ u := by
  rcases hs : splitAtChar c u with _ | ⟨p, q⟩
  · rw [splitOnFirst, hs] at h
    exact h
  · rw [splitOnFirst, hs] at h
    rw [(splitAtChar_eq_some hs).1]
    exact List.mem_append_left _ h

theorem splitOnFirst_not_mem_eq {c : Char} {u : List Char} (h : c ∉ u) :
    splitOnFirst c u = (u, []) := by
  rw [splitOnFirst, splitAtChar_eq_none.mpr h]

theorem splitOnFirst_fst_head (c : Char) (u : List Char) :
    (splitOnFirst c u).1 = [] ∨ ((splitOnFirst c u).1).head? = u.head? := by
  rcases hs : splitAtChar c u with _ | ⟨p, q⟩
  · right
    rw [splitOnFirst, hs]
  · match p, hs with
    | [], hs => left; rw [splitOnFirst, hs]
    | x :: xs, hs =>
      right
      rw [splitOnFirst, hs, (splitAtChar_eq_some hs).1]
      rfl

theorem mem_splitparams_fst {a : Char} {u : List Char}
    (h : a ∈ (splitparams u).1) : a ∈ u := by
  by_cases hs : ('/' : Char) ∈ u
  · rcases hl : splitAtLastChar '/' u with _ | ⟨pre, post⟩
    · simp only [splitparams, if_pos hs, hl] at h
      exact h
    · rcases hc : splitAtChar ';' post with _ | ⟨a2, b2⟩
      · simp only [splitparams, if_pos hs, hl, hc] at h
        exact h
      · simp only [splitparams, if_pos hs, hl, hc] at h
        rw [(splitAtLastChar_eq_some hl).1, (splitAtChar_eq_some hc).1]
        simp only [List.mem_append, List.mem_cons] at h ⊢
        rcases h with h | h | h
        · exact Or.inl h
        · exact Or.inr (Or.inl h)
        · exact Or.inr (Or.inr (Or.inl h))
  · rcases hc : splitAtChar ';' u with _ | ⟨a2, b2⟩
    · simp only [splitparams, if_neg hs, hc] at h
      exact h
    · simp only [splitparams, if_neg hs, hc] at h
      rw [(splitAtChar_eq_some hc).1]
      exact List.mem_append_left _ h

theorem splitparams_fst_head (u : List Char) :
    (splitparams u).1 = [] ∨ ((splitparams u).1).head? = u.head? := by
  by_cases hs : ('/' : Char) ∈ u
  · rcases hl : splitAtLastChar '/' u with _ | ⟨pre, post⟩
    · right
      simp only [splitparams, if_pos hs, hl]
    · rcases hc : splitAtChar ';' post with _ | ⟨a2, b2⟩
      · right
        simp only [splitparams, if_pos hs, hl, hc]
      · right
        simp only [splitparams, if_pos hs, hl, hc]
        rw [(splitAtLastChar_eq_some hl).1]
        cases pre with
        | nil => rfl
        | cons y ys => rfl
  · rcases hc : splitAtChar ';' u with _ | ⟨a2, b2⟩
    · right
      simp only [splitparams, if_neg hs, hc]
    · simp only [splitparams, if_neg hs, hc]
      match a2, hc with
      | [], _ => left; rfl
      | x :: xs, hc =>
        right
        rw [(splitAtChar_eq_some hc).1]
        rfl

theorem splitparams_noPending (u : List Char) : pathNoPendingParams (splitparams u).1 := by
  by_cases hs : ('/' : Char) ∈ u
  · rcases hl : splitAtLastChar '/' u with _ | ⟨pre, post⟩
    · exact absurd hs (splitAtLastChar_eq_none.mp hl)
    · have hu := splitAtLastChar_eq_some hl
      rcases hc : splitAtChar ';' post with _ | ⟨a2, b2⟩
      · simp only [splitparams, if_pos hs, hl, hc]
        intro _
        simp only [splitparams, if_pos hs, hl, hc]
      · have hpost := splitAtChar_eq_some hc
        have hslash_a2 : ('/' : Char) ∉ a2 := by
          intro hm
          exact hu.2 (by rw [hpost.1]; exact List.mem_append_left _ hm)
        simp only [splitparams, if_pos hs, hl, hc]
        intro _
        have hmem : ('/' : Char) ∈ pre ++ '/' :: a2 := by simp
        simp only [splitparams, if_pos hmem, splitAtLastChar_append pre hslash_a2,
          splitAtChar_eq_none.mpr hpost.2]
  · rcases hc : splitAtChar ';' u with _ | ⟨a2, b2⟩
    · simp only [splitparams, if_neg hs, hc]
      intro hsemi
      exact absurd hsemi (splitAtChar_eq_none.mp hc)
    · simp only [splitparams, if_neg hs, hc]
      intro hsemi
      exact absurd hsemi (splitAtChar_eq_some hc).2

theorem append_eq_append_cons {A D pre post : List Char} (hA : ('/' : Char) ∉ A)
    (h : A ++ D = pre ++ '/' :: post) :
    ∃ mid, pre = A ++ mid ∧ D = mid ++ '/' :: post := by
  induction A generalizing pre with
  | nil =>
    refine ⟨pre, by simp, ?_⟩
    rw [List.nil_append] at h
    rw [h]
  | cons x xs ih =>
    cases pre with
    | nil =>
      rw [List.cons_append, List.nil_append] at h
      injection h with h1 _
      exact absurd (by rw [h1]; exact List.mem_cons_self _ _) hA
    | cons y ys =>
      rw [List.cons_append, List.cons_append] at h
      injection h with h1 h2
      obtain ⟨mid, h3, h4⟩ := ih (fun hm => hA (List.mem_cons_of_mem _ hm)) h2
      refine ⟨mid, ?_, h4⟩
      rw [h1, h3, List.cons_append]

theorem pathNoPendingParams_dropWhile {P : List Char}
    (h : pathNoPendingParams P) (hq : ('?' : Char) ∉ P) (hf : ('#' : Char) ∉ P) :
    pathNoPendingParams (P.dropWhile (fun c => !isNetlocEnd c)) := by
  intro hsemi
  have hPsplit : P.takeWhile (fun c => !isNetlocEnd c) ++
      P.dropWhile (fun c => !isNetlocEnd c) = P := List.takeWhile_append_dropWhile _ _
  rcases hD : P.dropWhile (fun c => !isNetlocEnd c) with _ | ⟨d, t⟩
  · rw [hD] at hsemi
    cases hsemi
  · rw [hD] at hsemi hPsplit
    have hd : isNetlocEnd d = true := by
      have := dropWhile_head_false hD
      simpa using this
    have hdP : d ∈ P := by
      rw [← hPsplit]
      exact List.mem_append_right _ (List.mem_cons_self _ _)
    have hd_slash : d = '/' := by
      rw [isNetlocEnd] at hd
      rcases Bool.or_eq_true_iff.mp hd with hd1 | hd2
      · rcases Bool.or_eq_true_iff.mp hd1 with hd1 | hd1
        · exact of_decide_eq_true hd1
        · exact absurd (by rw [of_decide_eq_true hd1] at hdP; exact hdP) hq
      · exact absurd (by rw [of_decide_eq_true hd2] at hdP; exact hdP) hf
    subst hd_slash
    have hsemiP : (';' : Char) ∈ P := by
      rw [← hPsplit]
      exact List.mem_append_right _ hsemi
    have hPid := h hsemiP
    have hslashP : ('/' : Char) ∈ P := hdP
    rcases hl : splitAtLastChar '/' P with _ | ⟨pre, post⟩
    · exact absurd hslashP (splitAtLastChar_eq_none.mp hl)
    · have hu := splitAtLastChar_eq_some hl
      rcases hc : splitAtChar ';' post with _ | ⟨a2, b2⟩
      · have hnosemi := splitAtChar_eq_none.mp hc
        have hA_noslash : ('/' : Char) ∉ P.takeWhile (fun c => !isNetlocEnd c) := by
          intro hm
          have := List.mem_takeWhile_imp hm
          simp [isNetlocEnd] at this
        have hAD : P.takeWhile (fun c => !isNetlocEnd c) ++ '/' :: t = pre ++ '/' :: post := by
          rw [hPsplit]
          exact hu.1
        obtain ⟨mid, _, hDmid⟩ := append_eq_append_cons hA_noslash hAD
        rw [hDmid]
        have hmem2 : ('/' : Char) ∈ mid ++ '/' :: post := by simp
        simp only [splitparams, if_pos hmem2, splitAtLastChar_append mid hu.2,
          splitAtChar_eq_none.mpr hnosemi]
      · have hpost := splitAtChar_eq_some hc
        simp only [splitparams, if_pos hslashP, hl, hc, Prod.mk.injEq] at hPid
        have h1 := hPid.1
        rw [hu.1] at h1
        have h2 := List.append_cancel_left h1
        injection h2 with _ h3
        have hlen := congrArg List.length hpost.1
        rw [← h3] at hlen
        simp only [List.length_append, List.length_cons] at hlen
        omega

/-! ## Component properties of urlsplit and urlparse -/

theorem urlsplit_scheme (d u : List Char) : (urlsplit d u).scheme =
    (if (splitScheme (cleanUrl u)).1 = [] then cleanScheme d
     else (splitScheme (cleanUrl u)).1) := rfl

theorem urlsplit_netloc (d u : List Char) :
    (urlsplit d u).netloc = (splitNetloc (splitScheme (cleanUrl u)).2).1 := rfl

theorem urlsplit_rest2 (d u : List Char) :
    (urlsplit d u).path =
      (splitOnFirst '?' (splitOnFirst '#' (splitNetloc (splitScheme (cleanUrl u)).2).2).1).1 := rfl

theorem urlparseD_scheme (d u : List Char) :
    (urlparseD d u).scheme = (urlsplit d u).scheme := by
  rw [urlparseD]
  split <;> rfl

theorem urlparseD_netloc (d u : List Char) :
    (urlparseD d u).netloc = (urlsplit d u).netloc := by
  rw [urlparseD]
  split <;> rfl

theorem urlparseD_path_cases (d u : List Char) :
    (urlparseD d u).path = (urlsplit d u).path ∨
      (urlparseD d u).path = (splitparams (urlsplit d u).path).1 := by
  rw [urlparseD]
  split
  · right
    rfl
  · left
    rfl

theorem splitNetloc_fst_nodelim (v : List Char) :
    ∀ c ∈ (splitNetloc v).1, isNetlocEnd c = false := by
  intro c hc
  rw [splitNetloc] at hc
  by_cases h2 : v.take 2 = ['/', '/']
  · rw [if_pos h2] at hc
    have := List.mem_takeWhile_imp hc
    simpa using this
  · rw [if_neg h2] at hc
    cases hc

theorem splitNetloc_snd_shape (v : List Char) (h : (splitNetloc v).1 ≠ []) :
    (splitNetloc v).2 = [] ∨
      ∃ c t, (splitNetloc v).2 = c :: t ∧ isNetlocEnd c = true := by
  by_cases h2 : v.take 2 = ['/', '/']
  · rw [splitNetloc, if_pos h2]
    rcases hD : (v.drop 2).dropWhile (fun c => !isNetlocEnd c) with _ | ⟨c, t⟩
    · left
      rfl
    · right
      refine ⟨c, t, rfl, ?_⟩
      have := dropWhile_head_false hD
      simpa using this
  · rw [splitNetloc, if_neg h2] at h
    exact absurd rfl h

theorem mem_splitNetloc_fst {v : List Char} {a : Char} (h : a ∈ (splitNetloc v).1) : a ∈ v := by
  rw [splitNetloc] at h
  by_cases h2 : v.take 2 = ['/', '/']
  · rw [if_pos h2] at h
    have h3 : a ∈ v.drop 2 := (List.takeWhile_sublist _).subset h
    exact List.mem_of_mem_drop h3
  · rw [if_neg h2] at h
    cases h

theorem mem_splitNetloc_snd {v : List Char} {a : Char} (h : a ∈ (splitNetloc v).2) : a ∈ v := by
  rw [splitNetloc] at h
  by_cases h2 : v.take 2 = ['/', '/']
  · rw [if_pos h2] at h
    have h3 : a ∈ v.drop 2 := (List.dropWhile_sublist _).subset h
    exact List.mem_of_mem_drop h3
  · rw [if_neg h2] at h
    exact h

theorem mem_splitScheme_snd {u : List Char} {a : Char} (h : a ∈ (splitScheme u).2) : a ∈ u := by
  rcases hs : splitAtChar ':' u with _ | ⟨pre, rest⟩
  · rw [splitScheme, hs] at h
    exact h
  · by_cases hv : validScheme pre
    · simp only [splitScheme, hs, if_pos hv] at h
      rw [(splitAtChar_eq_some hs).1]
      exact List.mem_append_right _ (List.mem_cons_of_mem _ h)
    · simp only [splitScheme, hs, if_neg hv] at h
      exact h

theorem cleanChars_cleanUrl (u : List Char) : cleanChars (cleanUrl u) := by
  intro c hc
  rw [cleanUrl] at hc
  have := List.of_mem_filter hc
  simpa using this

theorem urlsplit_path_no_query (d u : List Char) : ('?' : Char) ∉ (urlsplit d u).path := by
  rw [urlsplit_rest2]
  exact splitOnFirst_fst_not_mem _ _

theorem urlsplit_path_no_frag (d u : List Char) : ('#' : Char) ∉ (urlsplit d u).path := by
  rw [urlsplit_rest2]
  intro hm
  exact splitOnFirst_fst_not_mem '#' _ (mem_splitOnFirst_fst hm)

theorem mem_urlsplit_path {d u : List Char} {a : Char} (h : a ∈ (urlsplit d u).path) :
    a ∈ cleanUrl u := by
  rw [urlsplit_rest2] at h
  exact mem_splitScheme_snd (mem_splitNetloc_snd (mem_splitOnFirst_fst (mem_splitOnFirst_fst h)))

theorem mem_urlsplit_netloc {d u : List Char} {a : Char} (h : a ∈ (urlsplit d u).netloc) :
    a ∈ cleanUrl u := by
  rw [urlsplit_netloc] at h
  exact mem_splitScheme_snd (mem_splitNetloc_fst h)

theorem urlparseD_netloc_nodelim (d u : List Char) :
    ∀ c ∈ (urlparseD d u).netloc, isNetlocEnd c = false := by
  rw [urlparseD_netloc, urlsplit_netloc]
  intro c hc
  exact splitNetloc_fst_nodelim _ c hc

theorem urlparseD_netloc_clean (d u : List Char) : cleanChars (urlparseD d u).netloc := by
  rw [urlparseD_netloc]
  intro c hc
  exact cleanChars_cleanUrl u c (mem_urlsplit_netloc hc)

theorem urlparseD_path_no_query (d u : List Char) : ('?' : Char) ∉ (urlparseD d u).path := by
  rcases urlparseD_path_cases d u with h | h <;> rw [h]
  · exact urlsplit_path_no_query d u
  · intro hm
    exact urlsplit_path_no_query d u (mem_splitparams_fst hm)

theorem urlparseD_path_no_frag (d u : List Char) : ('#' : Char) ∉ (urlparseD d u).path := by
  rcases urlparseD_path_cases d u with h | h <;> rw [h]
  · exact urlsplit_path_no_frag d u
  · intro hm
    exact urlsplit_path_no_frag d u (mem_splitparams_fst hm)

theorem urlparseD_path_clean (d u : List Char) : cleanChars (urlparseD d u).path := by
  rcases urlparseD_path_cases d u with h | h <;> rw [h]
  · intro c hc
    exact cleanChars_cleanUrl u c (mem_urlsplit_path hc)
  · intro c hc
    exact cleanChars_cleanUrl u c (mem_urlsplit_path (mem_splitparams_fst hc))

theorem urlparseD_path_noPending (d u : List Char)
    (hp : (urlparseD d u).scheme ∈ uses_params) :
    pathNoPendingParams (urlparseD d u).path := by
  rw [urlparseD_scheme] at hp
  rw [urlparseD]
  by_cases hm : (urlsplit d u).scheme ∈ uses_params ∧ (';' : Char) ∈ (urlsplit d u).path
  · rw [if_pos hm]
    exact splitparams_noPending _
  · rw [if_neg hm]
    intro hsemi
    exact absurd ⟨hp, hsemi⟩ hm

theorem splitScheme_fst (u : List Char) :
    (splitScheme u).1 = [] ∨
      ∃ pre, validScheme pre = true ∧ (splitScheme u).1 = pre.map Char.toLower := by
  rcases h : splitAtChar ':' u with _ | ⟨pre, rest⟩
  · left
    rw [splitScheme, h]
  · by_cases hv : validScheme pre
    · right
      exact ⟨pre, hv, by simp only [splitScheme, h, if_pos hv]⟩
    · left
      simp only [splitScheme, h, if_neg hv]

theorem urlparse_scheme_ok (u : List Char) :
    (urlparse u).scheme = [] ∨ schemeOk (urlparse u).scheme := by
  rw [urlparse, urlparseD_scheme, urlsplit_scheme]
  rcases splitScheme_fst (cleanUrl u) with h | ⟨pre, hv, h⟩
  · left
    rw [h, if_pos rfl]
    rfl
  · by_cases hz : (splitScheme (cleanUrl u)).1 = []
    · left
      rw [if_pos hz]
      rfl
    · right
      rw [if_neg hz, h]
      obtain ⟨h1, h2⟩ := validScheme_toLower hv
      exact ⟨h1, h2⟩

theorem splitOnFirst_cons_self (c : Char) (t : List Char) :
    splitOnFirst c (c :: t) = ([], t) := by
  rw [splitOnFirst, splitAtChar]
  simp

theorem splitparams_nil : splitparams [] = ([], []) := by decide

theorem urlsplit_path_shape (d u : List Char) (h : (urlsplit d u).netloc ≠ []) :
    (urlsplit d u).path = [] ∨ ((urlsplit d u).path).head? = some '/' := by
  rw [urlsplit_netloc] at h
  rcases splitNetloc_snd_shape _ h with h2 | ⟨c, t, hct, hcend⟩
  · left
    rw [urlsplit_rest2, h2]
    rfl
  · rw [urlsplit_rest2, hct]
    have hc3 : c = '/' ∨ c = '?' ∨ c = '#' := by
      rw [isNetlocEnd] at hcend
      rcases Bool.or_eq_true_iff.mp hcend with h1 | h1
      · rcases Bool.or_eq_true_iff.mp h1 with h1a | h1a
        · exact Or.inl (of_decide_eq_true h1a)
        · exact Or.inr (Or.inl (of_decide_eq_true h1a))
      · exact Or.inr (Or.inr (of_decide_eq_true h1))
    rcases hc3 with rfl | rfl | rfl
    · rcases splitOnFirst_fst_head '#' ('/' :: t) with hA | hA
      · left
        rw [hA]
        rfl
      · rcases splitOnFirst_fst_head '?' ((splitOnFirst '#' ('/' :: t)).1) with hB | hB
        · left
          exact hB
        · right
          rw [hB, hA]
          rfl
    · left
      rcases splitOnFirst_fst_head '#' ('?' :: t) with hA | hA
      · rw [hA]
        rfl
      · rcases hAform : (splitOnFirst '#' ('?' :: t)).1 with _ | ⟨x, xs⟩
        · rfl
        · rw [hAform] at hA
          have hx : x = '?' := by
            simpa using hA
          rw [hx, splitOnFirst_cons_self]
    · left
      rw [splitOnFirst_cons_self]
      rfl

theorem urlparseD_path_shape (d u : List Char) (h : (urlparseD d u).netloc ≠ []) :
    (urlparseD d u).path = [] ∨ ((urlparseD d u).path).head? = some '/' := by
  rw [urlparseD_netloc] at h
  rcases urlparseD_path_cases d u with hp | hp <;> rw [hp]
  · exact urlsplit_path_shape d u h
  · rcases urlsplit_path_shape d u h with h1 | h1
    · left
      rw [h1, splitparams_nil]
    · rcases splitparams_fst_head (urlsplit d u).path with h2 | h2
      · left
        exact h2
      · right
        rw [h2, h1]

/-- Re-parsing a cleaned URL `scheme://netloc ++ path` assembled from
components with the shapes `urlparse` produces.  This is the central lemma
behind idempotence of normalization and the stability of the domain
filter. -/
theorem urlparse_roundtrip (s N P : List Char)
    (hs : schemeOk s)
    (hN : ∀ c ∈ N, isNetlocEnd c = false)
    (hNc : cleanChars N)
    (hPq : ('?' : Char) ∉ P) (hPf : ('#' : Char) ∉ P)
    (hPc : cleanChars P)
    (hpar : s ∈ uses_params → pathNoPendingParams (P.dropWhile (fun c => !isNetlocEnd c))) :
    urlparse (s ++ ':' :: '/' :: '/' :: (N ++ P)) =
      ⟨s, N ++ P.takeWhile (fun c => !isNetlocEnd c),
          P.dropWhile (fun c => !isNetlocEnd c), [], [], []⟩ := by
  obtain ⟨a, as, hsa⟩ : ∃ a as, s = a :: as := by
    match s, hs with
    | [], hs => exact absurd hs.1 (by decide)
    | a :: as, _ => exact ⟨a, as, rfl⟩
  have hsne : s ≠ [] := by
    rw [hsa]
    intro h0
    cases h0
  have ha : a ∈ ascii_letters := by
    have := hs.1
    rw [hsa, validScheme, Bool.and_eq_true] at this
    exact List.elem_iff.mp this.1
  have hcolon : (':' : Char) ∉ s := fun hm =>
    colon_not_scheme_char (validScheme_mem hs.1 ':' hm)
  have hsc : cleanChars s := fun c hc => scheme_chars_clean c (validScheme_mem hs.1 c hc)
  have hcleanAll : ∀ c ∈ s ++ ':' :: '/' :: '/' :: (N ++ P), (!unsafeChar c) = true := by
    intro c hc
    simp only [List.mem_append, List.mem_cons] at hc
    rcases hc with hc | hc | hc | hc | hc
    · rw [hsc c hc]
      rfl
    · rw [hc]
      decide
    · rw [hc]
      decide
    · rw [hc]
      decide
    · rcases hc with hc | hc
      · rw [hNc c hc]
        rfl
      · rw [hPc c hc]
        rfl
  have hclean : cleanUrl (s ++ ':' :: '/' :: '/' :: (N ++ P)) =
      s ++ ':' :: '/' :: '/' :: (N ++ P) := by
    rw [cleanUrl, hsa, List.cons_append,
      dropWhile_cons_false (ascii_letters_not_control a ha), ← List.cons_append, ← hsa,
      List.filter_eq_self.mpr hcleanAll]
  have hsplitS : splitScheme (s ++ ':' :: '/' :: '/' :: (N ++ P)) =
      (s, '/' :: '/' :: (N ++ P)) := by
    simp only [splitScheme, splitAtChar_append ('/' :: '/' :: (N ++ P)) hcolon,
      if_pos hs.1, hs.2]
  have hN' : ∀ c ∈ N, (fun c => !isNetlocEnd c) c = true := by
    intro c hc
    simp [hN c hc]
  have hsplitN : splitNetloc ('/' :: '/' :: (N ++ P)) =
      (N ++ P.takeWhile (fun c => !isNetlocEnd c),
       P.dropWhile (fun c => !isNetlocEnd c)) := by
    have htake : List.take 2 ('/' :: '/' :: (N ++ P)) = ['/', '/'] := rfl
    rw [splitNetloc, if_pos htake]
    simp only [List.drop_succ_cons, List.drop_zero]
    rw [takeWhile_append_of_all hN', dropWhile_append_of_all hN']
  have hDsub : ∀ c ∈ P.dropWhile (fun c => !isNetlocEnd c), c ∈ P := by
    intro c hc
    exact (List.dropWhile_sublist _).subset hc
  have hfrag : splitOnFirst '#' (P.dropWhile (fun c => !isNetlocEnd c)) =
      (P.dropWhile (fun c => !isNetlocEnd c), []) :=
    splitOnFirst_not_mem_eq (fun hm => hPf (hDsub _ hm))
  have hquery : splitOnFirst '?' (P.dropWhile (fun c => !isNetlocEnd c)) =
      (P.dropWhile (fun c => !isNetlocEnd c), []) :=
    splitOnFirst_not_mem_eq (fun hm => hPq (hDsub _ hm))
  have hsp : urlsplit [] (s ++ ':' :: '/' :: '/' :: (N ++ P)) =
      ⟨s, N ++ P.takeWhile (fun c => !isNetlocEnd c),
       P.dropWhile (fun c => !isNetlocEnd c), [], []⟩ := by
    simp only [urlsplit, hclean, hsplitS, hsplitN, hfrag, hquery]
    rw [if_neg hsne]
  rw [urlparse, urlparseD]
  simp only [hsp]
  by_cases hup : s ∈ uses_params ∧ (';' : Char) ∈ P.dropWhile (fun c => !isNetlocEnd c)
  · rw [if_pos hup, hpar hup.1 hup.2]
  · rw [if_neg hup]

theorem splitAtChar_cons_self (c : Char) (t : List Char) :
    splitAtChar c (c :: t) = some ([], t) := by
  rw [splitAtChar]
  simp

/-- Re-parse of `cleanedOf (urlparse u)` when the parsed scheme is
nonempty. -/
theorem urlparse_cleanedOf (u : Url) (h : (urlparse u).scheme ≠ []) :
    urlparse (cleanedOf (urlparse u)) =
      ⟨(urlparse u).scheme,
       (urlparse u).netloc ++ (urlparse u).path.takeWhile (fun c => !isNetlocEnd c),
       (urlparse u).path.dropWhile (fun c => !isNetlocEnd c), [], [], []⟩ := by
  have hok : schemeOk (urlparse u).scheme := (urlparse_scheme_ok u).resolve_left h
  rw [cleanedOf]
  exact urlparse_roundtrip _ _ _ hok
    (urlparseD_netloc_nodelim [] u)
    (urlparseD_netloc_clean [] u)
    (urlparseD_path_no_query [] u)
    (urlparseD_path_no_frag [] u)
    (urlparseD_path_clean [] u)
    (fun hp => pathNoPendingParams_dropWhile
      (urlparseD_path_noPending [] u (by rw [urlparse] at hp; exact hp))
      (urlparseD_path_no_query [] u)
      (urlparseD_path_no_frag [] u))

theorem cleanUrl_colon_head (X : List Char) :
    cleanUrl (':' :: X) = ':' :: (X.filter (fun c => !unsafeChar c)) := by
  rw [cleanUrl, dropWhile_cons_false (by decide), List.filter_cons, if_pos (by decide)]

theorem urlparse_colon_head_scheme (X : List Char) : (urlparse (':' :: X)).scheme = [] := by
  rw [urlparse, urlparseD_scheme, urlsplit_scheme, cleanUrl_colon_head]
  have hss : splitScheme (':' :: X.filter (fun c => !unsafeChar c)) =
      ([], ':' :: X.filter (fun c => !unsafeChar c)) := by
    rw [splitScheme]
    simp only [splitAtChar_cons_self]
    rw [if_neg (by decide)]
  rw [hss, if_pos rfl]
  rfl

/-- The scheme survives cleaning and re-parsing, also when it is empty. -/
theorem urlparse_cleanedOf_scheme (u : Url) :
    (urlparse (cleanedOf (urlparse u))).scheme = (urlparse u).scheme := by
  by_cases h : (urlparse u).scheme = []
  · rw [h]
    have hc : cleanedOf (urlparse u) =
        ':' :: ('/' :: '/' :: ((urlparse u).netloc ++ (urlparse u).path)) := by
      rw [cleanedOf, h, List.nil_append]
    rw [hc, urlparse_colon_head_scheme]
  · rw [urlparse_cleanedOf u h]

/-- Normalization is idempotent on every URL whose parse has a scheme. -/
theorem normalizeUrl_fixpoint {u : Url} (h : (urlparse u).scheme ≠ []) :
    normalizeUrl (normalizeUrl u) = normalizeUrl u := by
  rw [normalizeUrl, normalizeUrl, urlparse_cleanedOf u h, cleanedOf, cleanedOf]
  simp only [List.append_assoc, List.cons_append, List.takeWhile_append_dropWhile]

/-- A cleaned parse result is a fixpoint of normalization whenever its own
parse has a nonempty scheme. -/
theorem cleanedOf_cond_fixpoint (u : Url) :
    (urlparse (cleanedOf (urlparse u))).scheme ≠ [] →
      normalizeUrl (cleanedOf (urlparse u)) = cleanedOf (urlparse u) := by
  intro h
  rw [urlparse_cleanedOf_scheme] at h
  exact normalizeUrl_fixpoint h

/-- With a nonempty scheme and a nonempty netloc, the network location of
the cleaned URL re-parses to exactly the same netloc. -/
theorem urlparse_cleanedOf_netloc (u : Url)
    (hsch : (urlparse u).scheme ≠ []) (hnet : (urlparse u).netloc ≠ []) :
    (urlparse (cleanedOf (urlparse u))).netloc = (urlparse u).netloc := by
  rw [urlparse_cleanedOf u hsch]
  show (urlparse u).netloc ++ (urlparse u).path.takeWhile (fun c => !isNetlocEnd c) =
    (urlparse u).netloc
  have hshape : (urlparse u).path = [] ∨ ((urlparse u).path).head? = some '/' :=
    urlparseD_path_shape [] u hnet
  rcases hshape with hp | hp
  · rw [hp]
    simp
  · rcases hP : (urlparse u).path with _ | ⟨x, xs⟩
    · simp
    · rw [hP] at hp
      have hx : x = '/' := by
        simpa using hp
      rw [hx]
      simp [List.takeWhile_cons, isNetlocEnd]

/-! ## Lemmas about the crawler building blocks -/

theorem insertSet_mem {x y : Url} {l : List Url} :
    y ∈ insertSet x l ↔ y = x ∨ y ∈ l := by
  rw [insertSet]
  by_cases hx : x ∈ l
  · rw [if_pos hx]
    constructor
    · exact fun h => Or.inr h
    · intro h
      rcases h with h | h
      · rw [h]
        exact hx
      · exact h
  · rw [if_neg hx]
    simp [List.mem_append, or_comm]

theorem insertSet_self_mem (x : Url) (l : List Url) : x ∈ insertSet x l :=
  insertSet_mem.mpr (Or.inl rfl)

theorem insertSet_mem_of_mem {x y : Url} {l : List Url} (h : y ∈ l) : y ∈ insertSet x l :=
  insertSet_mem.mpr (Or.inr h)

theorem insertSet_nodup {x : Url} {l : List Url} (h : l.Nodup) : (insertSet x l).Nodup := by
  rw [insertSet]
  by_cases hx : x ∈ l
  · rw [if_pos hx]
    exact h
  · rw [if_neg hx]
    rw [List.nodup_append]
    exact ⟨h, List.nodup_singleton x, by simpa using hx⟩

theorem insertSet_length_of_not_mem {x : Url} {l : List Url} (h : x ∉ l) :
    (insertSet x l).length = l.length + 1 := by
  rw [insertSet, if_neg h]
  simp

theorem enqueueNew_mem {v : List Url} :
    ∀ {links q : List Url} {x : Url}, x ∈ enqueueNew v q links → x ∈ q ∨ x ∈ links := by
  intro links
  induction links with
  | nil => intro q x h; exact Or.inl h
  | cons link rest ih =>
    intro q x h
    rw [enqueueNew, List.foldl_cons] at h
    rcases ih h with h2 | h2
    · by_cases hc : link ∉ v ∧ link ∉ q
      · rw [if_pos hc] at h2
        rcases List.mem_append.mp h2 with h3 | h3
        · exact Or.inl h3
        · right
          simp only [List.mem_singleton] at h3
          rw [h3]
          exact List.mem_cons_self _ _
      · rw [if_neg hc] at h2
        exact Or.inl h2
    · exact Or.inr (List.mem_cons_of_mem _ h2)

theorem enqueueNew_nodup {v : List Url} :
    ∀ {links q : List Url}, q.Nodup → (enqueueNew v q links).Nodup := by
  intro links
  induction links with
  | nil => intro q h; exact h
  | cons link rest ih =>
    intro q h
    rw [enqueueNew, List.foldl_cons]
    by_cases hc : link ∉ v ∧ link ∉ q
    · rw [if_pos hc]
      exact ih (by rw [List.nodup_append]; exact ⟨h, List.nodup_singleton _, by simpa using hc.2⟩)
    · rw [if_neg hc]
      exact ih h

theorem enqueueNew_not_mem {v : List Url} :
    ∀ {links q : List Url}, (∀ x ∈ q, x ∉ v) → ∀ x ∈ enqueueNew v q links, x ∉ v := by
  intro links
  induction links with
  | nil => intro q h; exact h
  | cons link rest ih =>
    intro q h
    rw [enqueueNew, List.foldl_cons]
    by_cases hc : link ∉ v ∧ link ∉ q
    · rw [if_pos hc]
      refine ih ?_
      intro x hx
      rcases List.mem_append.mp hx with h3 | h3
      · exact h x h3
      · simp only [List.mem_singleton] at h3
        rw [h3]
        exact hc.1
    · rw [if_neg hc]
      exact ih h

theorem countEv_nil (e : Event) : countEv e [] = 0 := rfl

theorem countEv_cons_self (e : Event) (l : List Event) :
    countEv e (e :: l) = countEv e l + 1 := by
  rw [countEv, countEv, List.filter_cons, if_pos (by simp)]
  simp

theorem countEv_cons_ne {e e' : Event} (h : e' ≠ e) (l : List Event) :
    countEv e (e' :: l) = countEv e l := by
  rw [countEv, countEv, List.filter_cons, if_neg (by simpa using h)]

theorem countEv_append (e : Event) (a b : List Event) :
    countEv e (a ++ b) = countEv e a + countEv e b := by
  rw [countEv, countEv, countEv, List.filter_append, List.length_append]

theorem countEv_cons (e e' : Event) (l : List Event) :
    countEv e (e' :: l) = (if e' = e then 1 else 0) + countEv e l := by
  by_cases h : e' = e
  · rw [if_pos h, h, countEv_cons_self]
    omega
  · rw [if_neg h, countEv_cons_ne h]
    omega

theorem dequeuedUrls_nil : dequeuedUrls [] = [] := rfl

theorem dequeuedUrls_cons_dequeue (u : Url) (l : List Event) :
    dequeuedUrls (Event.dequeue u :: l) = u :: dequeuedUrls l := rfl

theorem dequeuedUrls_cons_fetch (u : Url) (l : List Event) :
    dequeuedUrls (Event.fetch u :: l) = dequeuedUrls l := rfl

theorem dequeuedUrls_cons_emit (u : Url) (l : List Event) :
    dequeuedUrls (Event.emitFailure u :: l) = dequeuedUrls l := rfl

theorem dequeuedUrls_cons_sleep (l : List Event) :
    dequeuedUrls (Event.sleep :: l) = dequeuedUrls l := rfl

theorem dequeuedUrls_append (a b : List Event) :
    dequeuedUrls (a ++ b) = dequeuedUrls a ++ dequeuedUrls b := by
  rw [dequeuedUrls, dequeuedUrls, dequeuedUrls, List.filterMap_append]

theorem dequeuedUrls_fetchEvents (o : Oracle) (u : Url) :
    dequeuedUrls (fetchEvents o u) = [] := by
  rw [fetchEvents]
  split <;> rfl

theorem countEv_sleep_fetchEvents (o : Oracle) (u : Url) :
    countEv Event.sleep (fetchEvents o u) = 0 := by
  rw [fetchEvents]
  split <;> rfl

theorem countEv_fetch_fetchEvents (o : Oracle) (u w : Url) :
    countEv (Event.fetch w) (fetchEvents o u) = if w = u then 1 else 0 := by
  rw [fetchEvents]
  by_cases hw : w = u
  · rw [if_pos hw, hw]
    split
    · rw [countEv_cons_self, countEv_cons_ne (by simp) _, countEv_nil]
    · rw [countEv_cons_self, countEv_nil]
  · rw [if_neg hw]
    have h1 : Event.fetch u ≠ Event.fetch w := by
      simp
      intro h
      exact hw h.symm
    split
    · rw [countEv_cons_ne h1, countEv_cons_ne (by simp) _, countEv_nil]
    · rw [countEv_cons_ne h1, countEv_nil]

theorem foldl_addLink_mem (url base : Url) :
    ∀ {hrefs : List Url} {init : List Url} {l : Url},
      l ∈ hrefs.foldl (addLink url base) init →
      l ∈ init ∨ ∃ href, (urlparse (urljoin url href)).netloc = base ∧
        l = cleanedOf (urlparse (urljoin url href)) := by
  intro hrefs
  induction hrefs with
  | nil => intro init l h; exact Or.inl h
  | cons href rest ih =>
    intro init l h
    rw [List.foldl_cons] at h
    rcases ih h with h2 | h2
    · rw [addLink] at h2
      by_cases hnet : (urlparse (urljoin url href)).netloc = base
      · rw [if_pos hnet] at h2
        rcases insertSet_mem.mp h2 with h3 | h3
        · exact Or.inr ⟨href, hnet, h3⟩
        · exact Or.inl h3
      · rw [if_neg hnet] at h2
        exact Or.inl h2
    · exact Or.inr h2

theorem fetch_links_mem {o : Oracle} {url base l : Url} (h : l ∈ fetch_links o url base) :
    ∃ href, (urlparse (urljoin url href)).netloc = base ∧
      l = cleanedOf (urlparse (urljoin url href)) := by
  rcases hf : o url with _ | ⟨status, hrefs⟩
  · rw [fetch_links, hf] at h
    cases h
  · by_cases hst : 400 ≤ status ∧ status < 600
    · simp only [fetch_links, hf, if_pos hst] at h
      cases h
    · simp only [fetch_links, hf, if_neg hst] at h
      rcases foldl_addLink_mem url base h with h2 | h2
      · cases h2
      · exact h2

/-- Every link the extractor returns is a fixpoint of normalization as
soon as its parse has a nonempty scheme. -/
theorem fetch_links_normalized {o : Oracle} {url base l : Url}
    (h : l ∈ fetch_links o url base) :
    (urlparse l).scheme ≠ [] → normalizeUrl l = l := by
  obtain ⟨href, _, rfl⟩ := fetch_links_mem h
  exact cleanedOf_cond_fixpoint _

/-- Every link the extractor returns whose parse has a nonempty scheme has
network location exactly the base domain, provided the base domain is
nonempty. -/
theorem fetch_links_domain {o : Oracle} {url base l : Url} (hbase : base ≠ [])
    (h : l ∈ fetch_links o url base) (hs : (urlparse l).scheme ≠ []) :
    (urlparse l).netloc = base := by
  obtain ⟨href, hnet, rfl⟩ := fetch_links_mem h
  rw [urlparse_cleanedOf_scheme] at hs
  rw [urlparse_cleanedOf_netloc _ hs (by rw [hnet]; exact hbase), hnet]

/-! ## Case equations for crawlLoop -/

theorem crawlLoop_zero (o : Oracle) (base : Url) (s : CrawlState) :
    crawlLoop o base 0 s = if s.to_visit = [] then some (s, []) else none := rfl

theorem crawlLoop_succ_nil (o : Oracle) (base : Url) (fuel : Nat) {s : CrawlState}
    (h : s.to_visit = []) : crawlLoop o base (fuel + 1) s = some (s, []) := by
  rw [crawlLoop]
  simp only [h]

theorem crawlLoop_succ_skip (o : Oracle) (base : Url) (fuel : Nat) {s : CrawlState}
    {current : Url} {rest : List Url}
    (hq : s.to_visit = current :: rest) (hv : current ∈ s.visited) :
    crawlLoop o base (fuel + 1) s =
      (crawlLoop o base fuel ⟨s.visited, s.valid_links, rest⟩).map
        (fun r => (r.1, Event.dequeue current :: r.2)) := by
  rw [crawlLoop]
  simp only [hq, if_pos hv]

theorem crawlLoop_succ_fail (o : Oracle) (base : Url) (fuel : Nat) {s : CrawlState}
    {current : Url} {rest : List Url}
    (hq : s.to_visit = current :: rest) (hv : current ∉ s.visited)
    (hr : fetchRaises (o current) = true) :
    crawlLoop o base (fuel + 1) s =
      (crawlLoop o base fuel ⟨insertSet current s.visited, s.valid_links, rest⟩).map
        (fun r =>
          (r.1, Event.dequeue current :: Event.fetch current ::
            Event.emitFailure current :: r.2)) := by
  rw [crawlLoop]
  simp only [hq, if_neg hv, hr, if_true]

theorem crawlLoop_succ_ok (o : Oracle) (base : Url) (fuel : Nat) {s : CrawlState}
    {current : Url} {rest : List Url}
    (hq : s.to_visit = current :: rest) (hv : current ∉ s.visited)
    (hr : fetchRaises (o current) = false) :
    crawlLoop o base (fuel + 1) s =
      (crawlLoop o base fuel
        ⟨insertSet current s.visited, insertSet current s.valid_links,
         enqueueNew (insertSet current s.visited) rest (fetch_links o current base)⟩).map
        (fun r =>
          (r.1, Event.dequeue current :: Event.fetch current ::
            (fetchEvents o current ++ Event.sleep :: r.2))) := by
  rw [crawlLoop]
  simp only [hq, if_neg hv, hr]
  rfl

/-- Full case analysis of one `crawlLoop` step with fuel left. -/
theorem crawlLoop_succ_cases (o : Oracle) (base : Url) {n : Nat} {s st : CrawlState}
    {evs : List Event} (h : crawlLoop o base (n + 1) s = some (st, evs)) :
    (s.to_visit = [] ∧ st = s ∧ evs = []) ∨
    (∃ current rest st' evs',
      s.to_visit = current :: rest ∧ current ∈ s.visited ∧
      crawlLoop o base n ⟨s.visited, s.valid_links, rest⟩ = some (st', evs') ∧
      st = st' ∧ evs = Event.dequeue current :: evs') ∨
    (∃ current rest st' evs',
      s.to_visit = current :: rest ∧ current ∉ s.visited ∧ fetchRaises (o current) = true ∧
      crawlLoop o base n ⟨insertSet current s.visited, s.valid_links, rest⟩ =
        some (st', evs') ∧
      st = st' ∧ evs = Event.dequeue current :: Event.fetch current ::
        Event.emitFailure current :: evs') ∨
    (∃ current rest st' evs',
      s.to_visit = current :: rest ∧ current ∉ s.visited ∧ fetchRaises (o current) = false ∧
      crawlLoop o base n ⟨insertSet current s.visited, insertSet current s.valid_links,
        enqueueNew (insertSet current s.visited) rest (fetch_links o current base)⟩ =
        some (st', evs') ∧
      st = st' ∧ evs = Event.dequeue current :: Event.fetch current ::
        (fetchEvents o current ++ Event.sleep :: evs')) := by
  rcases hq : s.to_visit with _ | ⟨current, rest⟩
  · rw [crawlLoop_succ_nil o base n hq] at h
    simp only [Option.some.injEq, Prod.mk.injEq] at h
    exact Or.inl ⟨rfl, h.1.symm, h.2.symm⟩
  · by_cases hv : current ∈ s.visited
    · rw [crawlLoop_succ_skip o base n hq hv] at h
      rcases Option.map_eq_some'.mp h with ⟨⟨st', evs'⟩, hrec, heq⟩
      simp only [Prod.mk.injEq] at heq
      exact Or.inr (Or.inl ⟨current, rest, st', evs', rfl, hv, hrec, heq.1.symm, heq.2.symm⟩)
    · by_cases hr : fetchRaises (o current) = true
      · rw [crawlLoop_succ_fail o base n hq hv hr] at h
        rcases Option.map_eq_some'.mp h with ⟨⟨st', evs'⟩, hrec, heq⟩
        simp only [Prod.mk.injEq] at heq
        exact Or.inr (Or.inr (Or.inl
          ⟨current, rest, st', evs', rfl, hv, hr, hrec, heq.1.symm, heq.2.symm⟩))
      · have hr2 : fetchRaises (o current) = false := by
          simpa using hr
        rw [crawlLoop_succ_ok o base n hq hv hr2] at h
        rcases Option.map_eq_some'.mp h with ⟨⟨st', evs'⟩, hrec, heq⟩
        simp only [Prod.mk.injEq] at heq
        exact Or.inr (Or.inr (Or.inr
          ⟨current, rest, st', evs', rfl, hv, hr2, hrec, heq.1.symm, heq.2.symm⟩))

/-- ValidPages remains a subset of Visited through any run of the crawl
loop. -/
theorem crawlLoop_valid_subset (o : Oracle) (base : Url) :
    ∀ (fuel : Nat) (s st : CrawlState) (evs : List Event),
      (∀ x ∈ s.valid_links, x ∈ s.visited) →
      crawlLoop o base fuel s = some (st, evs) →
      ∀ x ∈ st.valid_links, x ∈ st.visited := by
  intro fuel
  induction fuel with
  | zero =>
    intro s st evs hsub h
    rw [crawlLoop_zero] at h
    split_ifs at h
    simp only [Option.some.injEq, Prod.mk.injEq] at h
    rw [← h.1]
    exact hsub
  | succ n ih =>
    intro s st evs hsub h
    rcases crawlLoop_succ_cases o base h with
      ⟨_, rfl, _⟩ |
      ⟨c, rest, st', evs', hq, hv, hrec, rfl, _⟩ |
      ⟨c, rest, st', evs', hq, hv, hr, hrec, rfl, _⟩ |
      ⟨c, rest, st', evs', hq, hv, hr, hrec, rfl, _⟩
    · exact hsub
    · exact ih ⟨s.visited, s.valid_links, rest⟩ _ _ hsub hrec
    · refine ih ⟨insertSet c s.visited, s.valid_links, rest⟩ _ _ ?_ hrec
      intro x hx
      exact insertSet_mem_of_mem (hsub x hx)
    · refine ih ⟨insertSet c s.visited, insertSet c s.valid_links,
        enqueueNew (insertSet c s.visited) rest (fetch_links o c base)⟩ _ _ ?_ hrec
      intro x hx
      rcases insertSet_mem.mp hx with h1 | h1
      · rw [h1]
        exact insertSet_self_mem _ _
      · exact insertSet_mem_of_mem (hsub x h1)

theorem fetchEvents_of_ok {o : Oracle} {u : Url} (hr : fetchRaises (o u) = false) :
    fetchEvents o u = [Event.fetch u] := by
  rw [fetchEvents, hr]
  rfl

/-- The politeness pause happens exactly once per URL added to
ValidPages: sleeps in the trace count the growth of `valid_links`. -/
theorem crawlLoop_sleep_count (o : Oracle) (base : Url) :
    ∀ (fuel : Nat) (s st : CrawlState) (evs : List Event),
      (∀ x ∈ s.valid_links, x ∈ s.visited) →
      crawlLoop o base fuel s = some (st, evs) →
      st.valid_links.length = s.valid_links.length + countEv Event.sleep evs := by
  intro fuel
  induction fuel with
  | zero =>
    intro s st evs hsub h
    rw [crawlLoop_zero] at h
    split_ifs at h
    simp only [Option.some.injEq, Prod.mk.injEq] at h
    rw [← h.1, ← h.2, countEv_nil]
    omega
  | succ n ih =>
    intro s st evs hsub h
    rcases crawlLoop_succ_cases o base h with
      ⟨_, rfl, rfl⟩ |
      ⟨c, rest, st', evs', hq, hv, hrec, rfl, rfl⟩ |
      ⟨c, rest, st', evs', hq, hv, hr, hrec, rfl, rfl⟩ |
      ⟨c, rest, st', evs', hq, hv, hr, hrec, rfl, rfl⟩
    · rw [countEv_nil]
      omega
    · rw [countEv_cons_ne (by simp)]
      exact ih ⟨s.visited, s.valid_links, rest⟩ _ _ hsub hrec
    · rw [countEv_cons_ne (by simp), countEv_cons_ne (by simp), countEv_cons_ne (by simp)]
      refine ih ⟨insertSet c s.visited, s.valid_links, rest⟩ _ _ ?_ hrec
      intro x hx
      exact insertSet_mem_of_mem (hsub x hx)
    · have hcnv : c ∉ s.valid_links := fun hm => hv (hsub c hm)
      have hlen := ih ⟨insertSet c s.visited, insertSet c s.valid_links,
        enqueueNew (insertSet c s.visited) rest (fetch_links o c base)⟩ _ _
        (by
          intro x hx
          rcases insertSet_mem.mp hx with h1 | h1
          · rw [h1]
            exact insertSet_self_mem _ _
          · exact insertSet_mem_of_mem (hsub x h1)) hrec
      rw [countEv_cons_ne (by simp), countEv_cons_ne (by simp), countEv_append,
        countEv_sleep_fetchEvents, countEv_cons_self]
      rw [hlen, insertSet_length_of_not_mem hcnv]
      omega

/-- Every URL is requested at most twice over a run, and a URL already in
Visited is never requested again. -/
theorem crawlLoop_fetch_count (o : Oracle) (base : Url) :
    ∀ (fuel : Nat) (s st : CrawlState) (evs : List Event),
      crawlLoop o base fuel s = some (st, evs) →
      ∀ u, (u ∈ s.visited → countEv (Event.fetch u) evs = 0) ∧
        countEv (Event.fetch u) evs ≤ 2 := by
  intro fuel
  induction fuel with
  | zero =>
    intro s st evs h u
    rw [crawlLoop_zero] at h
    split_ifs at h
    simp only [Option.some.injEq, Prod.mk.injEq] at h
    rw [← h.2, countEv_nil]
    exact ⟨fun _ => rfl, by omega⟩
  | succ n ih =>
    intro s st evs h u
    rcases crawlLoop_succ_cases o base h with
      ⟨_, rfl, rfl⟩ |
      ⟨c, rest, st', evs', hq, hv, hrec, rfl, rfl⟩ |
      ⟨c, rest, st', evs', hq, hv, hr, hrec, rfl, rfl⟩ |
      ⟨c, rest, st', evs', hq, hv, hr, hrec, rfl, rfl⟩
    · rw [countEv_nil]
      exact ⟨fun _ => rfl, by omega⟩
    · rw [countEv_cons_ne (by simp)]
      exact ih ⟨s.visited, s.valid_links, rest⟩ _ _ hrec u
    · have hIH := ih ⟨insertSet c s.visited, s.valid_links, rest⟩ _ _ hrec u
      by_cases huc : u = c
      · subst huc
        have hz : countEv (Event.fetch u) evs' = 0 :=
          hIH.1 (insertSet_self_mem _ _)
        rw [countEv_cons_ne (by simp), countEv_cons_self, countEv_cons_ne (by simp), hz]
        exact ⟨fun hmem => absurd hmem hv, by omega⟩
      · have hne : Event.fetch c ≠ Event.fetch u := by
          simp only [ne_eq, Event.fetch.injEq]
          exact fun hh => huc hh.symm
        rw [countEv_cons_ne (by simp), countEv_cons_ne hne, countEv_cons_ne (by simp)]
        exact ⟨fun hmem => hIH.1 (insertSet_mem_of_mem hmem), hIH.2⟩
    · have hIH := ih ⟨insertSet c s.visited, insertSet c s.valid_links,
        enqueueNew (insertSet c s.visited) rest (fetch_links o c base)⟩ _ _ hrec u
      by_cases huc : u = c
      · subst huc
        have hz : countEv (Event.fetch u) evs' = 0 :=
          hIH.1 (insertSet_self_mem _ _)
        rw [countEv_cons_ne (by simp), countEv_cons_self, countEv_append,
          countEv_fetch_fetchEvents, if_pos rfl, countEv_cons_ne (by simp), hz]
        exact ⟨fun hmem => absurd hmem hv, by omega⟩
      · have hne : Event.fetch c ≠ Event.fetch u := by
          simp only [ne_eq, Event.fetch.injEq]
          exact fun hh => huc hh.symm
        rw [countEv_cons_ne (by simp), countEv_cons_ne hne, countEv_append,
          countEv_fetch_fetchEvents, if_neg huc, countEv_cons_ne (by simp)]
        refine ⟨fun hmem => ?_, ?_⟩
        · have := hIH.1 (insertSet_mem_of_mem hmem)
          omega
        · have := hIH.2
          omega

/-- A URL whose fetch raises never enters ValidPages. -/
theorem crawlLoop_failed_not_valid (o : Oracle) (base : Url) :
    ∀ (fuel : Nat) (s st : CrawlState) (evs : List Event),
      crawlLoop o base fuel s = some (st, evs) →
      ∀ u, fetchRaises (o u) = true → u ∉ s.valid_links → u ∉ st.valid_links := by
  intro fuel
  induction fuel with
  | zero =>
    intro s st evs h u hu hnv
    rw [crawlLoop_zero] at h
    split_ifs at h
    simp only [Option.some.injEq, Prod.mk.injEq] at h
    rw [← h.1]
    exact hnv
  | succ n ih =>
    intro s st evs h u hu hnv
    rcases crawlLoop_succ_cases o base h with
      ⟨_, rfl, _⟩ |
      ⟨c, rest, st', evs', hq, hv, hrec, rfl, _⟩ |
      ⟨c, rest, st', evs', hq, hv, hr, hrec, rfl, _⟩ |
      ⟨c, rest, st', evs', hq, hv, hr, hrec, rfl, _⟩
    · exact hnv
    · exact ih ⟨s.visited, s.valid_links, rest⟩ _ _ hrec u hu hnv
    · exact ih ⟨insertSet c s.visited, s.valid_links, rest⟩ _ _ hrec u hu hnv
    · refine ih ⟨insertSet c s.visited, insertSet c s.valid_links,
        enqueueNew (insertSet c s.visited) rest (fetch_links o c base)⟩ _ _ hrec u hu ?_
      intro hmem
      rcases insertSet_mem.mp hmem with h1 | h1
      · rw [h1] at hu
        rw [hu] at hr
        cases hr
      · exact hnv h1

/-- For a URL whose fetch raises, every request in the trace is matched by
exactly one failure notice. -/
theorem crawlLoop_failure_notice (o : Oracle) (base : Url) :
    ∀ (fuel : Nat) (s st : CrawlState) (evs : List Event),
      crawlLoop o base fuel s = some (st, evs) →
      ∀ u, fetchRaises (o u) = true →
        countEv (Event.emitFailure u) evs = countEv (Event.fetch u) evs := by
  intro fuel
  induction fuel with
  | zero =>
    intro s st evs h u hu
    rw [crawlLoop_zero] at h
    split_ifs at h
    simp only [Option.some.injEq, Prod.mk.injEq] at h
    rw [← h.2, countEv_nil, countEv_nil]
  | succ n ih =>
    intro s st evs h u hu
    rcases crawlLoop_succ_cases o base h with
      ⟨_, rfl, rfl⟩ |
      ⟨c, rest, st', evs', hq, hv, hrec, rfl, rfl⟩ |
      ⟨c, rest, st', evs', hq, hv, hr, hrec, rfl, rfl⟩ |
      ⟨c, rest, st', evs', hq, hv, hr, hrec, rfl, rfl⟩
    · rw [countEv_nil, countEv_nil]
    · have hrec2 := ih ⟨s.visited, s.valid_links, rest⟩ _ _ hrec u hu
      simp only [countEv_cons, reduceCtorEq, if_false]
      omega
    · have hrec2 := ih ⟨insertSet c s.visited, s.valid_links, rest⟩ _ _ hrec u hu
      by_cases huc : c = u
      · subst huc
        simp only [countEv_cons, reduceCtorEq, if_false, if_pos rfl]
        omega
      · simp only [countEv_cons, reduceCtorEq, if_false, Event.fetch.injEq,
          Event.emitFailure.injEq, if_neg huc]
        omega
    · have huc : ¬ c = u := by
        intro hh
        rw [← hh] at hu
        rw [hu] at hr
        cases hr
      have hrec2 := ih ⟨insertSet c s.visited, insertSet c s.valid_links,
        enqueueNew (insertSet c s.visited) rest (fetch_links o c base)⟩ _ _ hrec u hu
      rw [fetchEvents_of_ok hr]
      simp only [List.singleton_append, countEv_cons, reduceCtorEq, if_false,
        Event.fetch.injEq, if_neg huc]
      omega

/-- Membership in the final Visited comes from the initial Visited or from
a dequeue recorded in the trace. -/
theorem crawlLoop_visited_from_dequeue (o : Oracle) (base : Url) :
    ∀ (fuel : Nat) (s st : CrawlState) (evs : List Event),
      crawlLoop o base fuel s = some (st, evs) →
      ∀ u, u ∈ st.visited → u ∈ s.visited ∨ u ∈ dequeuedUrls evs := by
  intro fuel
  induction fuel with
  | zero =>
    intro s st evs h u hu
    rw [crawlLoop_zero] at h
    split_ifs at h
    simp only [Option.some.injEq, Prod.mk.injEq] at h
    rw [← h.1] at hu
    exact Or.inl hu
  | succ n ih =>
    intro s st evs h u hu
    rcases crawlLoop_succ_cases o base h with
      ⟨_, rfl, rfl⟩ |
      ⟨c, rest, st', evs', hq, hv, hrec, rfl, rfl⟩ |
      ⟨c, rest, st', evs', hq, hv, hr, hrec, rfl, rfl⟩ |
      ⟨c, rest, st', evs', hq, hv, hr, hrec, rfl, rfl⟩
    · exact Or.inl hu
    · rw [dequeuedUrls_cons_dequeue]
      rcases ih ⟨s.visited, s.valid_links, rest⟩ _ _ hrec u hu with h1 | h1
      · exact Or.inl h1
      · exact Or.inr (List.mem_cons_of_mem _ h1)
    · rw [dequeuedUrls_cons_dequeue, dequeuedUrls_cons_fetch, dequeuedUrls_cons_emit]
      rcases ih ⟨insertSet c s.visited, s.valid_links, rest⟩ _ _ hrec u hu with h1 | h1
      · rcases insertSet_mem.mp h1 with h2 | h2
        · rw [h2]
          exact Or.inr (List.mem_cons_self _ _)
        · exact Or.inl h2
      · exact Or.inr (List.mem_cons_of_mem _ h1)
    · rw [dequeuedUrls_cons_dequeue, dequeuedUrls_cons_fetch, dequeuedUrls_append,
        dequeuedUrls_fetchEvents, dequeuedUrls_cons_sleep, List.nil_append]
      rcases ih ⟨insertSet c s.visited, insertSet c s.valid_links,
        enqueueNew (insertSet c s.visited) rest (fetch_links o c base)⟩ _ _ hrec u hu with
        h1 | h1
      · rcases insertSet_mem.mp h1 with h2 | h2
        · rw [h2]
          exact Or.inr (List.mem_cons_self _ _)
        · exact Or.inl h2
      · exact Or.inr (List.mem_cons_of_mem _ h1)

/-- Any property that holds of the initial state and of every extractor
output is preserved by the crawl loop on all three stores. -/
theorem crawlLoop_preserves (o : Oracle) (base : Url) (Q : Url → Prop)
    (hQ : ∀ u l, l ∈ fetch_links o u base → Q l) :
    ∀ (fuel : Nat) (s st : CrawlState) (evs : List Event),
      (∀ x ∈ s.visited, Q x) → (∀ x ∈ s.valid_links, Q x) → (∀ x ∈ s.to_visit, Q x) →
      crawlLoop o base fuel s = some (st, evs) →
      (∀ x ∈ st.visited, Q x) ∧ (∀ x ∈ st.valid_links, Q x) ∧ (∀ x ∈ st.to_visit, Q x) := by
  intro fuel
  induction fuel with
  | zero =>
    intro s st evs h1 h2 h3 h
    rw [crawlLoop_zero] at h
    split_ifs at h
    simp only [Option.some.injEq, Prod.mk.injEq] at h
    rw [← h.1]
    exact ⟨h1, h2, h3⟩
  | succ n ih =>
    intro s st evs h1 h2 h3 h
    rcases crawlLoop_succ_cases o base h with
      ⟨_, rfl, _⟩ |
      ⟨c, rest, st', evs', hq, hv, hrec, rfl, _⟩ |
      ⟨c, rest, st', evs', hq, hv, hr, hrec, rfl, _⟩ |
      ⟨c, rest, st', evs', hq, hv, hr, hrec, rfl, _⟩
    · exact ⟨h1, h2, h3⟩
    · exact ih ⟨s.visited, s.valid_links, rest⟩ _ _ h1 h2
        (fun x hx => h3 x (by rw [hq]; exact List.mem_cons_of_mem _ hx)) hrec
    · have hQc : Q c := h3 c (by rw [hq]; exact List.mem_cons_self _ _)
      refine ih ⟨insertSet c s.visited, s.valid_links, rest⟩ _ _ ?_ h2
        (fun x hx => h3 x (by rw [hq]; exact List.mem_cons_of_mem _ hx)) hrec
      intro x hx
      rcases insertSet_mem.mp hx with h4 | h4
      · rw [h4]
        exact hQc
      · exact h1 x h4
    · have hQc : Q c := h3 c (by rw [hq]; exact List.mem_cons_self _ _)
      refine ih ⟨insertSet c s.visited, insertSet c s.valid_links,
        enqueueNew (insertSet c s.visited) rest (fetch_links o c base)⟩ _ _ ?_ ?_ ?_ hrec
      · intro x hx
        rcases insertSet_mem.mp hx with h4 | h4
        · rw [h4]
          exact hQc
        · exact h1 x h4
      · intro x hx
        rcases insertSet_mem.mp hx with h4 | h4
        · rw [h4]
          exact hQc
        · exact h2 x h4
      · intro x hx
        rcases enqueueNew_mem hx with h4 | h4
        · exact h3 x (by rw [hq]; exact List.mem_cons_of_mem _ h4)
        · exact hQ c x h4

/-- From a state whose frontier is duplicate-free and disjoint from
Visited, the dequeued URLs are pairwise distinct, none of them was visited
at the start, and Visited grows by exactly one per dequeue, so the
skip-if-visited check never fires. -/
theorem crawlLoop_dequeues (o : Oracle) (base : Url) :
    ∀ (fuel : Nat) (s st : CrawlState) (evs : List Event),
      s.to_visit.Nodup → (∀ x ∈ s.to_visit, x ∉ s.visited) →
      crawlLoop o base fuel s = some (st, evs) →
      (dequeuedUrls evs).Nodup ∧ (∀ x ∈ dequeuedUrls evs, x ∉ s.visited) ∧
        st.visited.length = s.visited.length + (dequeuedUrls evs).length := by
  intro fuel
  induction fuel with
  | zero =>
    intro s st evs hnd hdisj h
    rw [crawlLoop_zero] at h
    split_ifs at h
    simp only [Option.some.injEq, Prod.mk.injEq] at h
    rw [← h.1, ← h.2, dequeuedUrls_nil]
    exact ⟨List.nodup_nil, by simp, by simp⟩
  | succ n ih =>
    intro s st evs hnd hdisj h
    rcases crawlLoop_succ_cases o base h with
      ⟨_, rfl, rfl⟩ |
      ⟨c, rest, st', evs', hq, hv, hrec, rfl, rfl⟩ |
      ⟨c, rest, st', evs', hq, hv, hr, hrec, rfl, rfl⟩ |
      ⟨c, rest, st', evs', hq, hv, hr, hrec, rfl, rfl⟩
    · rw [dequeuedUrls_nil]
      exact ⟨List.nodup_nil, by simp, by simp⟩
    · exact absurd hv (hdisj c (by rw [hq]; exact List.mem_cons_self _ _))
    · rw [hq] at hnd
      have hcrest : c ∉ rest := (List.nodup_cons.mp hnd).1
      have hrest : rest.Nodup := (List.nodup_cons.mp hnd).2
      have hdisj2 : ∀ x ∈ rest, x ∉ insertSet c s.visited := by
        intro x hx hmem
        rcases insertSet_mem.mp hmem with h1 | h1
        · rw [h1] at hx
          exact hcrest hx
        · exact hdisj x (by rw [hq]; exact List.mem_cons_of_mem _ hx) h1
      obtain ⟨hnd', hdisj', hlen'⟩ :=
        ih ⟨insertSet c s.visited, s.valid_links, rest⟩ _ _ hrest hdisj2 hrec
      rw [dequeuedUrls_cons_dequeue, dequeuedUrls_cons_fetch, dequeuedUrls_cons_emit]
      refine ⟨List.nodup_cons.mpr ⟨fun hm => hdisj' c hm (insertSet_self_mem _ _), hnd'⟩,
        ?_, ?_⟩
      · intro x hx
        rcases List.mem_cons.mp hx with h1 | h1
        · rw [h1]
          exact hv
        · exact fun hm => hdisj' x h1 (insertSet_mem_of_mem hm)
      · rw [hlen']
        rw [insertSet_length_of_not_mem hv]
        simp only [List.length_cons]
        omega
    · rw [hq] at hnd
      have hcrest : c ∉ rest := (List.nodup_cons.mp hnd).1
      have hrest : rest.Nodup := (List.nodup_cons.mp hnd).2
      have hdisj2 : ∀ x ∈ rest, x ∉ insertSet c s.visited := by
        intro x hx hmem
        rcases insertSet_mem.mp hmem with h1 | h1
        · rw [h1] at hx
          exact hcrest hx
        · exact hdisj x (by rw [hq]; exact List.mem_cons_of_mem _ hx) h1
      obtain ⟨hnd', hdisj', hlen'⟩ :=
        ih ⟨insertSet c s.visited, insertSet c s.valid_links,
          enqueueNew (insertSet c s.visited) rest (fetch_links o c base)⟩ _ _
          (enqueueNew_nodup hrest) (enqueueNew_not_mem hdisj2) hrec
      rw [dequeuedUrls_cons_dequeue, dequeuedUrls_cons_fetch, dequeuedUrls_append,
        dequeuedUrls_fetchEvents, dequeuedUrls_cons_sleep, List.nil_append]
      refine ⟨List.nodup_cons.mpr ⟨fun hm => hdisj' c hm (insertSet_self_mem _ _), hnd'⟩,
        ?_, ?_⟩
      · intro x hx
        rcases List.mem_cons.mp hx with h1 | h1
        · rw [h1]
          exact hv
        · exact fun hm => hdisj' x h1 (insertSet_mem_of_mem hm)
      · rw [hlen']
        rw [insertSet_length_of_not_mem hv]
        simp only [List.length_cons]
        omega

theorem filter_imp_length_le {p q : Url → Bool} (h : ∀ x, p x = true → q x = true) :
    ∀ R : List Url, (R.filter p).length ≤ (R.filter q).length := by
  intro R
  induction R with
  | nil => simp
  | cons a R' ih =>
    rw [List.filter_cons, List.filter_cons]
    by_cases hp : p a = true
    · rw [if_pos hp, if_pos (h a hp)]
      simpa using ih
    · rw [if_neg (by simpa using hp)]
      by_cases hqa : q a = true
      · rw [if_pos hqa]
        simp only [List.length_cons]
        omega
      · rw [if_neg (by simpa using hqa)]
        exact ih

theorem filter_insertSet_length :
    ∀ (R : List Url) (v : List Url) (current : Url), current ∈ R → current ∉ v →
      (R.filter (fun x => decide (x ∉ insertSet current v))).length <
        (R.filter (fun x => decide (x ∉ v))).length := by
  have himp : ∀ (v : List Url) (current : Url) (x : Url),
      decide (x ∉ insertSet current v) = true → decide (x ∉ v) = true := by
    intro v current x hx
    rw [decide_eq_true_iff] at hx ⊢
    exact fun hm => hx (insertSet_mem_of_mem hm)
  intro R
  induction R with
  | nil => intro v current h; cases h
  | cons a R' ih =>
    intro v current hmem hv
    rw [List.filter_cons, List.filter_cons]
    by_cases hac : a = current
    · have hp : decide (a ∉ insertSet current v) = false := by
        rw [decide_eq_false_iff_not, not_not, hac]
        exact insertSet_self_mem _ _
      have hqa : decide (a ∉ v) = true := by
        rw [decide_eq_true_iff, hac]
        exact hv
      rw [hp, if_neg (by simp), if_pos hqa]
      have := filter_imp_length_le (himp v current) R'
      simp only [List.length_cons]
      omega
    · have hmem' : current ∈ R' := by
        rcases List.mem_cons.mp hmem with h1 | h1
        · exact absurd h1.symm hac
        · exact h1
      have heq : decide (a ∉ insertSet current v) = decide (a ∉ v) := by
        apply decide_eq_decide.mpr
        constructor
        · intro hni hm
          exact hni (insertSet_mem_of_mem hm)
        · intro hni hm
          rcases insertSet_mem.mp hm with h1 | h1
          · exact hac h1
          · exact hni h1
      rw [heq]
      by_cases hqa : decide (a ∉ v) = true
      · rw [if_pos hqa, if_pos hqa]
        have := ih v current hmem' hv
        simp only [List.length_cons]
        omega
      · rw [if_neg (by simpa using hqa), if_neg (by simpa using hqa)]
        exact ih v current hmem' hv

/-- Fuel bound for termination: when every frontier URL lies in a finite
set `R` containing the seed and closed under link extraction, the loop
finishes within as much fuel as there are unvisited members of `R`. -/
theorem crawlLoop_isSome (o : Oracle) (base : Url) (R : List Url)
    (hclosed : ∀ u ∈ R, ∀ l ∈ fetch_links o u base, l ∈ R) :
    ∀ (fuel : Nat) (s : CrawlState),
      s.to_visit.Nodup → (∀ x ∈ s.to_visit, x ∉ s.visited) →
      (∀ x ∈ s.to_visit, x ∈ R) →
      (R.filter (fun x => decide (x ∉ s.visited))).length ≤ fuel →
      (crawlLoop o base fuel s).isSome := by
  intro fuel
  induction fuel with
  | zero =>
    intro s hnd hdisj hR hlen
    rw [crawlLoop_zero]
    rcases hq : s.to_visit with _ | ⟨c, rest⟩
    · simp
    · exfalso
      have hcR : c ∈ R := hR c (by rw [hq]; exact List.mem_cons_self _ _)
      have hcv : c ∉ s.visited := hdisj c (by rw [hq]; exact List.mem_cons_self _ _)
      have hmemf : c ∈ R.filter (fun x => decide (x ∉ s.visited)) :=
        List.mem_filter.mpr ⟨hcR, by simpa using hcv⟩
      have hpos := List.length_pos.mpr (List.ne_nil_of_mem hmemf)
      omega
  | succ n ih =>
    intro s hnd hdisj hR hlen
    rcases hq : s.to_visit with _ | ⟨c, rest⟩
    · rw [crawlLoop_succ_nil o base n hq]
      rfl
    · have hcmem : c ∈ s.to_visit := by
        rw [hq]
        exact List.mem_cons_self _ _
      have hv : c ∉ s.visited := hdisj c hcmem
      have hcR : c ∈ R := hR c hcmem
      rw [hq] at hnd
      have hcrest : c ∉ rest := (List.nodup_cons.mp hnd).1
      have hrest : rest.Nodup := (List.nodup_cons.mp hnd).2
      have hdisj2 : ∀ x ∈ rest, x ∉ insertSet c s.visited := by
        intro x hx hmem
        rcases insertSet_mem.mp hmem with h1 | h1
        · rw [h1] at hx
          exact hcrest hx
        · exact hdisj x (by rw [hq]; exact List.mem_cons_of_mem _ hx) h1
      have hlen' : (R.filter (fun x => decide (x ∉ insertSet c s.visited))).length ≤ n := by
        have := filter_insertSet_length R s.visited c hcR hv
        omega
      by_cases hr : fetchRaises (o c) = true
      · rw [crawlLoop_succ_fail o base n hq hv hr]
        have hS := ih ⟨insertSet c s.visited, s.valid_links, rest⟩ hrest hdisj2
          (fun x hx => hR x (by rw [hq]; exact List.mem_cons_of_mem _ hx)) hlen'
        obtain ⟨r, hr3⟩ := Option.isSome_iff_exists.mp hS
        rw [hr3]
        rfl
      · have hr2 : fetchRaises (o c) = false := by
          simpa using hr
        rw [crawlLoop_succ_ok o base n hq hv hr2]
        have hS := ih ⟨insertSet c s.visited, insertSet c s.valid_links,
            enqueueNew (insertSet c s.visited) rest (fetch_links o c base)⟩
          (enqueueNew_nodup hrest) (enqueueNew_not_mem hdisj2) ?_ hlen'
        · obtain ⟨r, hr3⟩ := Option.isSome_iff_exists.mp hS
          rw [hr3]
          rfl
        · intro x hx
          rcases enqueueNew_mem hx with h1 | h1
          · exact hR x (by rw [hq]; exact List.mem_cons_of_mem _ h1)
          · exact hclosed c hcR x h1

/-- A URL whose fetch raises is requested at most once over a run. -/
theorem crawlLoop_fetch_count_fail (o : Oracle) (base : Url) :
    ∀ (fuel : Nat) (s st : CrawlState) (evs : List Event),
      crawlLoop o base fuel s = some (st, evs) →
      ∀ u, fetchRaises (o u) = true →
        (u ∈ s.visited → countEv (Event.fetch u) evs = 0) ∧
          countEv (Event.fetch u) evs ≤ 1 := by
  intro fuel
  induction fuel with
  | zero =>
    intro s st evs h u hu
    rw [crawlLoop_zero] at h
    split_ifs at h
    simp only [Option.some.injEq, Prod.mk.injEq] at h
    rw [← h.2, countEv_nil]
    exact ⟨fun _ => rfl, by omega⟩
  | succ n ih =>
    intro s st evs h u hu
    rcases crawlLoop_succ_cases o base h with
      ⟨_, rfl, rfl⟩ |
      ⟨c, rest, st', evs', hq, hv, hrec, rfl, rfl⟩ |
      ⟨c, rest, st', evs', hq, hv, hr, hrec, rfl, rfl⟩ |
      ⟨c, rest, st', evs', hq, hv, hr, hrec, rfl, rfl⟩
    · rw [countEv_nil]
      exact ⟨fun _ => rfl, by omega⟩
    · rw [countEv_cons_ne (by simp)]
      exact ih ⟨s.visited, s.valid_links, rest⟩ _ _ hrec u hu
    · have hIH := ih ⟨insertSet c s.visited, s.valid_links, rest⟩ _ _ hrec u hu
      by_cases huc : u = c
      · subst huc
        have hz : countEv (Event.fetch u) evs' = 0 :=
          hIH.1 (insertSet_self_mem _ _)
        rw [countEv_cons_ne (by simp), countEv_cons_self, countEv_cons_ne (by simp), hz]
        exact ⟨fun hmem => absurd hmem hv, by omega⟩
      · have hne : Event.fetch c ≠ Event.fetch u := by
          simp only [ne_eq, Event.fetch.injEq]
          exact fun hh => huc hh.symm
        rw [countEv_cons_ne (by simp), countEv_cons_ne hne, countEv_cons_ne (by simp)]
        exact ⟨fun hmem => hIH.1 (insertSet_mem_of_mem hmem), hIH.2⟩
    · have huc : ¬ u = c := by
        intro hh
        rw [hh] at hu
        rw [hu] at hr
        cases hr
      have hne : Event.fetch c ≠ Event.fetch u := by
        simp only [ne_eq, Event.fetch.injEq]
        exact fun hh => huc hh.symm
      have hIH := ih ⟨insertSet c s.visited, insertSet c s.valid_links,
        enqueueNew (insertSet c s.visited) rest (fetch_links o c base)⟩ _ _ hrec u hu
      rw [countEv_cons_ne (by simp), countEv_cons_ne hne, countEv_append,
        countEv_fetch_fetchEvents, if_neg huc, countEv_cons_ne (by simp)]
      refine ⟨fun hmem => ?_, ?_⟩
      · have := hIH.1 (insertSet_mem_of_mem hmem)
        omega
      · have := hIH.2
        omega

/-- Visited only grows over the run. -/
theorem crawlLoop_visited_mono (o : Oracle) (base : Url) :
    ∀ (fuel : Nat) (s st : CrawlState) (evs : List Event),
      crawlLoop o base fuel s = some (st, evs) →
      ∀ u ∈ s.visited, u ∈ st.visited := by
  intro fuel
  induction fuel with
  | zero =>
    intro s st evs h u hu
    rw [crawlLoop_zero] at h
    split_ifs at h
    simp only [Option.some.injEq, Prod.mk.injEq] at h
    rw [← h.1]
    exact hu
  | succ n ih =>
    intro s st evs h u hu
    rcases crawlLoop_succ_cases o base h with
      ⟨_, rfl, _⟩ |
      ⟨c, rest, st', evs', hq, hv, hrec, rfl, _⟩ |
      ⟨c, rest, st', evs', hq, hv, hr, hrec, rfl, _⟩ |
      ⟨c, rest, st', evs', hq, hv, hr, hrec, rfl, _⟩
    · exact hu
    · exact ih ⟨s.visited, s.valid_links, rest⟩ _ _ hrec u hu
    · exact ih ⟨insertSet c s.visited, s.valid_links, rest⟩ _ _ hrec u
        (insertSet_mem_of_mem hu)
    · exact ih ⟨insertSet c s.visited, insertSet c s.valid_links,
        enqueueNew (insertSet c s.visited) rest (fetch_links o c base)⟩ _ _ hrec u
        (insertSet_mem_of_mem hu)

/-- Every dequeued URL ends the run in Visited. -/
theorem crawlLoop_dequeued_visited (o : Oracle) (base : Url) :
    ∀ (fuel : Nat) (s st : CrawlState) (evs : List Event),
      crawlLoop o base fuel s = some (st, evs) →
      ∀ u ∈ dequeuedUrls evs, u ∈ st.visited := by
  intro fuel
  induction fuel with
  | zero =>
    intro s st evs h u hu
    rw [crawlLoop_zero] at h
    split_ifs at h
    simp only [Option.some.injEq, Prod.mk.injEq] at h
    rw [← h.2, dequeuedUrls_nil] at hu
    cases hu
  | succ n ih =>
    intro s st evs h u hu
    rcases crawlLoop_succ_cases o base h with
      ⟨_, rfl, rfl⟩ |
      ⟨c, rest, st', evs', hq, hv, hrec, rfl, rfl⟩ |
      ⟨c, rest, st', evs', hq, hv, hr, hrec, rfl, rfl⟩ |
      ⟨c, rest, st', evs', hq, hv, hr, hrec, rfl, rfl⟩
    · rw [dequeuedUrls_nil] at hu
      cases hu
    · rw [dequeuedUrls_cons_dequeue] at hu
      rcases List.mem_cons.mp hu with h1 | h1
      · rw [h1]
        exact crawlLoop_visited_mono o base n _ _ _ hrec c hv
      · exact ih ⟨s.visited, s.valid_links, rest⟩ _ _ hrec u h1
    · rw [dequeuedUrls_cons_dequeue, dequeuedUrls_cons_fetch, dequeuedUrls_cons_emit] at hu
      rcases List.mem_cons.mp hu with h1 | h1
      · rw [h1]
        exact crawlLoop_visited_mono o base n _ _ _ hrec c (insertSet_self_mem _ _)
      · exact ih ⟨insertSet c s.visited, s.valid_links, rest⟩ _ _ hrec u h1
    · rw [dequeuedUrls_cons_dequeue, dequeuedUrls_cons_fetch, dequeuedUrls_append,
        dequeuedUrls_fetchEvents, dequeuedUrls_cons_sleep, List.nil_append] at hu
      rcases List.mem_cons.mp hu with h1 | h1
      · rw [h1]
        exact crawlLoop_visited_mono o base n _ _ _ hrec c (insertSet_self_mem _ _)
      · exact ih ⟨insertSet c s.visited, insertSet c s.valid_links,
          enqueueNew (insertSet c s.visited) rest (fetch_links o c base)⟩ _ _ hrec u h1

/-! ## Concrete crawl scenarios used by counterexamples and witnesses -/

def seedEx : Url := "http://e.com/".toList

def seedQuery : Url := "https://example.com/a?q=1".toList

def pageEx : Url := "http://example.com/".toList

def domainEx : Url := "example.com".toList

/-- Server answering 200 with a page containing no anchors. -/
def oracleOk : Oracle := fun _ => Fetch.ok 200 []

/-- Network failing every request (transport error or timeout). -/
def oracleErr : Oracle := fun _ => Fetch.err

/-- Server answering 304 Not Modified: a non-2xx status that
`raise_for_status` does not raise on. -/
def oracle304 : Oracle := fun _ => Fetch.ok 304 []

/-- Server answering 404 to every request. -/
def oracle404 : Oracle := fun _ => Fetch.ok 404 []

/-- Server answering 200 with one relative anchor `/a`. -/
def oracleLink : Oracle := fun _ => Fetch.ok 200 ["/a".toList]

/-- Server agreeing with `oracleLink` on `pageEx` and failing elsewhere. -/
def oracleLinkAt : Oracle := fun u => if u = pageEx then Fetch.ok 200 ["/a".toList] else Fetch.err

/-- Server answering 200 with one `mailto:` anchor. -/
def oracleMailto : Oracle := fun _ => Fetch.ok 200 ["mailto:bob".toList]

/-! ## The claims -/

/-- C1, as stated, fails on the code: a successfully crawled URL is
fetched twice, once by the crawl loop (line 58) and once more inside
`fetch_links` (line 17), so with a seed whose page has no links the trace
of a one-page crawl contains two HTTP requests for the seed. -/
theorem C1_counterexample :
    crawl_site oracleOk seedEx 1 =
      some (⟨[seedEx], [seedEx], []⟩,
        [Event.dequeue seedEx, Event.fetch seedEx, Event.fetch seedEx, Event.sleep]) ∧
    countEv (Event.fetch seedEx)
      [Event.dequeue seedEx, Event.fetch seedEx, Event.fetch seedEx, Event.sleep] = 2 := by
  exact ⟨by decide, by decide⟩

/-- C1 (amended): when `crawl_site` returns, the number of URLs in Visited
equals the number of distinct URLs ever dequeued from the frontier, and no
URL is subjected to more than two HTTP fetches over the whole run (one in
the crawl loop, plus one during link extraction when the first fetch
succeeded). -/
theorem C1_theorem (o : Oracle) (seed : Url) (fuel : Nat) (st : CrawlState)
    (evs : List Event) (h : crawl_site o seed fuel = some (st, evs)) :
    st.visited.length = (dequeuedUrls evs).dedup.length ∧
      ∀ u, countEv (Event.fetch u) evs ≤ 2 := by
  rw [crawl_site] at h
  obtain ⟨hnd, _, hlen⟩ := crawlLoop_dequeues o (urlparse seed).netloc fuel
    ⟨[], [], [seed]⟩ st evs (List.nodup_singleton seed) (by simp) h
  constructor
  · rw [List.dedup_eq_self.mpr hnd]
    simpa using hlen
  · intro u
    exact (crawlLoop_fetch_count o (urlparse seed).netloc fuel ⟨[], [], [seed]⟩ st evs h u).2

theorem C1_witness :
    (⟨[seedEx], [seedEx], []⟩ : CrawlState).visited.length =
      (dequeuedUrls [Event.dequeue seedEx, Event.fetch seedEx, Event.fetch seedEx,
        Event.sleep]).dedup.length ∧
    countEv (Event.fetch seedEx)
      [Event.dequeue seedEx, Event.fetch seedEx, Event.fetch seedEx, Event.sleep] ≤ 2 :=
  ⟨(C1_theorem oracleOk seedEx 1 ⟨[seedEx], [seedEx], []⟩
      [Event.dequeue seedEx, Event.fetch seedEx, Event.fetch seedEx, Event.sleep]
      (by decide)).1,
   (C1_theorem oracleOk seedEx 1 ⟨[seedEx], [seedEx], []⟩
      [Event.dequeue seedEx, Event.fetch seedEx, Event.fetch seedEx, Event.sleep]
      (by decide)).2 seedEx⟩

/-- C2, as stated, fails on the code: when the fetch of a dequeued URL
fails, the `except` branch (lines 61-64) runs `continue`, skipping the
`time.sleep(0.5)` at line 78, so a crawl whose seed fetch fails performs a
dequeue but no politeness pause at all. -/
theorem C2_counterexample :
    crawl_site oracleErr seedEx 1 =
      some (⟨[seedEx], [], []⟩,
        [Event.dequeue seedEx, Event.fetch seedEx, Event.emitFailure seedEx]) ∧
    countEv (Event.dequeue seedEx)
      [Event.dequeue seedEx, Event.fetch seedEx, Event.emitFailure seedEx] = 1 ∧
    countEv Event.sleep
      [Event.dequeue seedEx, Event.fetch seedEx, Event.emitFailure seedEx] = 0 := by
  exact ⟨by decide, by decide, by decide⟩

/-- C2 (amended): `crawl_site` pauses for the fixed 0.5-time-unit
politeness delay exactly once per successfully processed URL (after its
link extraction, before the next dequeue); failed fetches and skipped
dequeues proceed to the next dequeue without a pause, so the number of
sleeps in a run equals the size of ValidPages. -/
theorem C2_theorem (o : Oracle) (seed : Url) (fuel : Nat) (st : CrawlState)
    (evs : List Event) (h : crawl_site o seed fuel = some (st, evs)) :
    countEv Event.sleep evs = st.valid_links.length := by
  rw [crawl_site] at h
  have hc := crawlLoop_sleep_count o (urlparse seed).netloc fuel ⟨[], [], [seed]⟩ st evs
    (by simp) h
  simp only [List.length_nil] at hc
  omega

theorem C2_witness :
    countEv Event.sleep
      [Event.dequeue seedEx, Event.fetch seedEx, Event.fetch seedEx, Event.sleep] =
      (⟨[seedEx], [seedEx], []⟩ : CrawlState).valid_links.length :=
  C2_theorem oracleOk seedEx 1 ⟨[seedEx], [seedEx], []⟩
    [Event.dequeue seedEx, Event.fetch seedEx, Event.fetch seedEx, Event.sleep] (by decide)

/-- C3, as stated, fails on the code: `fetch_links` does not take the page
content as an input at all; it takes only the URL and the base domain and
performs its own network fetch (line 17), so two calls with identical
(URL, base domain) arguments can return different link sets when the
network answers differently. -/
theorem C3_counterexample :
    fetch_links oracleLink pageEx domainEx ≠ fetch_links oracleErr pageEx domainEx ∧
    fetch_links oracleLink pageEx domainEx = ["http://example.com/a".toList] ∧
    fetch_links oracleErr pageEx domainEx = [] := by
  exact ⟨by decide, by decide, by decide⟩

/-- C3 (amended): `fetch_links` takes the page URL and the base domain,
performs exactly one HTTP GET of that URL, and is a pure function of its
two arguments and of the network response to that single request: any two
oracles that agree on the fetched URL yield identical link sets. -/
theorem C3_theorem (o1 o2 : Oracle) (url base : Url) (h : o1 url = o2 url) :
    fetch_links o1 url base = fetch_links o2 url base := by
  rw [fetch_links, fetch_links, h]

theorem C3_witness :
    fetch_links oracleLink pageEx domainEx = fetch_links oracleLinkAt pageEx domainEx :=
  C3_theorem oracleLink oracleLinkAt pageEx domainEx (by decide)

/-- C4, as stated, fails on the code for one family of statuses: the
claim counts every non-2xx status as a failed fetch, but
`raise_for_status` raises only for statuses in [400, 600), so a 304 Not
Modified response (non-2xx, not followed as a redirect, delivered as the
final response) is treated as a success: the URL is recorded in
ValidPages and no failure notice is emitted. -/
theorem C4_counterexample :
    oracle304 seedEx = Fetch.ok 304 [] ∧
    crawl_site oracle304 seedEx 1 =
      some (⟨[seedEx], [seedEx], []⟩,
        [Event.dequeue seedEx, Event.fetch seedEx, Event.fetch seedEx, Event.sleep]) ∧
    seedEx ∈ (⟨[seedEx], [seedEx], []⟩ : CrawlState).valid_links ∧
    countEv (Event.emitFailure seedEx)
      [Event.dequeue seedEx, Event.fetch seedEx, Event.fetch seedEx, Event.sleep] = 0 := by
  exact ⟨by decide, by decide, by decide, by decide⟩

/-- C4 (amended): whenever the fetch of a dequeued URL fails — transport
error, timeout, or a 4xx/5xx status, the cases in which the `try` block
raises — that URL is never in ValidPages, it is fetched at most once in
the whole run (no retry), each of its fetches is matched by exactly one
failure notice, the crawl continues (the loop still drains the whole
frontier), and the URL is in Visited exactly when it was dequeued; in
particular a seed answered with HTTP 404 yields an empty ValidPages and
Visited containing just the seed. -/
theorem C4_theorem :
    (∀ (o : Oracle) (seed : Url) (fuel : Nat) (st : CrawlState) (evs : List Event),
      crawl_site o seed fuel = some (st, evs) →
      ∀ u, fetchRaises (o u) = true →
        u ∉ st.valid_links ∧
        countEv (Event.fetch u) evs ≤ 1 ∧
        countEv (Event.emitFailure u) evs = countEv (Event.fetch u) evs ∧
        (u ∈ st.visited ↔ u ∈ dequeuedUrls evs)) ∧
    crawl_site oracle404 seedEx 1 =
      some (⟨[seedEx], [], []⟩,
        [Event.dequeue seedEx, Event.fetch seedEx, Event.emitFailure seedEx]) := by
  constructor
  · intro o seed fuel st evs h u hu
    rw [crawl_site] at h
    refine ⟨crawlLoop_failed_not_valid o _ fuel _ st evs h u hu (by simp),
      (crawlLoop_fetch_count_fail o _ fuel _ st evs h u hu).2,
      crawlLoop_failure_notice o _ fuel _ st evs h u hu, ?_, ?_⟩
    · intro hmem
      rcases crawlLoop_visited_from_dequeue o _ fuel _ st evs h u hmem with h1 | h1
      · cases h1
      · exact h1
    · intro hmem
      exact crawlLoop_dequeued_visited o _ fuel _ st evs h u hmem
  · decide

theorem C4_witness :
    seedEx ∉ (⟨[seedEx], [], []⟩ : CrawlState).valid_links ∧
    countEv (Event.fetch seedEx)
      [Event.dequeue seedEx, Event.fetch seedEx, Event.emitFailure seedEx] ≤ 1 ∧
    countEv (Event.emitFailure seedEx)
      [Event.dequeue seedEx, Event.fetch seedEx, Event.emitFailure seedEx] =
      countEv (Event.fetch seedEx)
        [Event.dequeue seedEx, Event.fetch seedEx, Event.emitFailure seedEx] ∧
    (seedEx ∈ (⟨[seedEx], [], []⟩ : CrawlState).visited ↔
      seedEx ∈ dequeuedUrls
        [Event.dequeue seedEx, Event.fetch seedEx, Event.emitFailure seedEx]) :=
  C4_theorem.1 oracle404 seedEx 1 ⟨[seedEx], [], []⟩
    [Event.dequeue seedEx, Event.fetch seedEx, Event.emitFailure seedEx]
    (by decide) seedEx (by decide)

/-- C5, as stated, fails on the code: the seed URL is placed into the
frontier exactly as given (line 47), without normalization, so a seed
carrying a query string enters the frontier, and then Visited, in
unnormalized form. -/
theorem C5_counterexample :
    crawl_site oracleErr seedQuery 1 =
      some (⟨[seedQuery], [], []⟩,
        [Event.dequeue seedQuery, Event.fetch seedQuery, Event.emitFailure seedQuery]) ∧
    seedQuery ∈ (⟨[seedQuery], [], []⟩ : CrawlState).visited ∧
    normalizeUrl seedQuery ≠ seedQuery := by
  exact ⟨by decide, by decide, by decide⟩

/-- C5 (amended): every URL held in the frontier, Visited or ValidPages is
either the seed — which is enqueued exactly as given, unnormalized — or an
output of the link extractor, i.e. a cleaned form
scheme://netloc/path with query string and fragment discarded; every such
extractor output whose parse carries a nonempty scheme is a fixpoint of
normalization. -/
theorem C5_theorem (o : Oracle) (seed : Url) (fuel : Nat) (st : CrawlState)
    (evs : List Event) (h : crawl_site o seed fuel = some (st, evs)) :
    ∀ x, (x ∈ st.visited ∨ x ∈ st.valid_links ∨ x ∈ st.to_visit) →
      x = seed ∨ ((urlparse x).scheme ≠ [] → normalizeUrl x = x) := by
  rw [crawl_site] at h
  have hpres := crawlLoop_preserves o (urlparse seed).netloc
    (fun x => x = seed ∨ ((urlparse x).scheme ≠ [] → normalizeUrl x = x))
    (fun u l hl => Or.inr (fetch_links_normalized hl))
    fuel ⟨[], [], [seed]⟩ st evs (by simp) (by simp)
    (by
      intro x hx
      simp only [List.mem_singleton] at hx
      exact Or.inl hx) h
  intro x hx
  rcases hx with hx | hx | hx
  · exact hpres.1 x hx
  · exact hpres.2.1 x hx
  · exact hpres.2.2 x hx

theorem C5_witness :
    seedEx = seedEx ∨ ((urlparse seedEx).scheme ≠ [] → normalizeUrl seedEx = seedEx) :=
  C5_theorem oracleOk seedEx 1 ⟨[seedEx], [seedEx], []⟩
    [Event.dequeue seedEx, Event.fetch seedEx, Event.fetch seedEx, Event.sleep]
    (by decide) seedEx (Or.inl (by decide))

/-- C6: for every network oracle whose graph of internal links reachable
from the seed is contained in a finite closed set R of URLs, `crawl_site`
terminates within |R| loop iterations (one unit of fuel per iteration):
the frontier only grows with URLs not already in Visited or the frontier,
and every dequeued URL joins Visited, so at most |R| dequeues happen. -/
theorem C6_theorem (o : Oracle) (seed : Url) (R : List Url)
    (hnd : R.Nodup) (hseed : seed ∈ R)
    (hclosed : ∀ u ∈ R, ∀ l ∈ fetch_links o u (urlparse seed).netloc, l ∈ R) :
    (crawl_site o seed R.length).isSome := by
  rw [crawl_site]
  apply crawlLoop_isSome o (urlparse seed).netloc R hclosed R.length ⟨[], [], [seed]⟩
    (List.nodup_singleton seed) (by simp)
  · intro x hx
    simp only [List.mem_singleton] at hx
    rw [hx]
    exact hseed
  · have hfil : R.filter (fun x => decide ((x : Url) ∉ ([] : List Url))) = R := by
      apply List.filter_eq_self.mpr
      intro a _
      simp
    rw [hfil]

theorem C6_witness : (crawl_site oracleErr seedEx [seedEx].length).isSome :=
  C6_theorem oracleErr seedEx [seedEx] (by decide) (by decide) (by decide)

/-- C7, as stated, fails on the code: with base domain the empty string, a
page on an ordinary http URL whose body carries a `mailto:bob` anchor
passes the filter (its parsed netloc is empty and equals the base), and
the stored cleaned form `mailto://bob` re-parses with network location
`bob`, not the base domain. -/
theorem C7_counterexample :
    fetch_links oracleMailto pageEx [] = ["mailto://bob".toList] ∧
    (urlparse "mailto://bob".toList).netloc = "bob".toList ∧
    "bob".toList ≠ ([] : Url) := by
  exact ⟨by decide, by decide, by decide⟩

/-- C7 (amended): when the base domain is nonempty, every URL in the link
extractor's output whose parse carries a nonempty scheme has network
location byte-for-byte equal to the base domain; links resolving to any
other network location (subdomains, case variants, external hosts) are
excluded by the exact string comparison at line 33. -/
theorem C7_theorem (o : Oracle) (url base l : Url) (hbase : base ≠ [])
    (hmem : l ∈ fetch_links o url base) (hs : (urlparse l).scheme ≠ []) :
    (urlparse l).netloc = base :=
  fetch_links_domain hbase hmem hs

theorem C7_witness :
    (urlparse "http://example.com/a".toList).netloc = domainEx :=
  C7_theorem oracleLink pageEx domainEx "http://example.com/a".toList
    (by decide) (by decide) (by decide)

/-- C8: ValidPages is a subset of Visited at all times: the inclusion is
preserved by every loop iteration from any state satisfying it, and holds
in particular for every state reached by `crawl_site`, whose initial
stores are empty. -/
theorem C8_theorem :
    (∀ (o : Oracle) (base : Url) (fuel : Nat) (s st : CrawlState) (evs : List Event),
      (∀ x ∈ s.valid_links, x ∈ s.visited) →
      crawlLoop o base fuel s = some (st, evs) →
      ∀ x ∈ st.valid_links, x ∈ st.visited) ∧
    (∀ (o : Oracle) (seed : Url) (fuel : Nat) (st : CrawlState) (evs : List Event),
      crawl_site o seed fuel = some (st, evs) →
      ∀ x ∈ st.valid_links, x ∈ st.visited) := by
  refine ⟨crawlLoop_valid_subset, ?_⟩
  intro o seed fuel st evs h
  rw [crawl_site] at h
  exact crawlLoop_valid_subset o (urlparse seed).netloc fuel ⟨[], [], [seed]⟩ st evs
    (by simp) h

theorem C8_witness :
    seedEx ∈ (⟨[seedEx], [seedEx], []⟩ : CrawlState).visited :=
  C8_theorem.2 oracleOk seedEx 1 ⟨[seedEx], [seedEx], []⟩
    [Event.dequeue seedEx, Event.fetch seedEx, Event.fetch seedEx, Event.sleep]
    (by decide) seedEx (by decide)

/-- C9, as stated, fails on the code: normalization is not idempotent on
URLs without a scheme.  The protocol-relative reference //example.com/a
normalizes to ://example.com/a, which re-parses with empty scheme and
netloc and normalizes again to ://://example.com/a. -/
theorem C9_counterexample :
    normalizeUrl (normalizeUrl "//example.com/a".toList) ≠
      normalizeUrl "//example.com/a".toList ∧
    normalizeUrl "//example.com/a".toList = "://example.com/a".toList := by
  exact ⟨by decide, by decide⟩

/-- C9 (amended): on every URL whose parse carries a nonempty scheme —
in particular on every absolute http/https URL — normalization is
idempotent: normalizing the normalized form yields it unchanged. -/
theorem C9_theorem (u : Url) (h : (urlparse u).scheme ≠ []) :
    normalizeUrl (normalizeUrl u) = normalizeUrl u :=
  normalizeUrl_fixpoint h

theorem C9_witness :
    normalizeUrl (normalizeUrl "https://example.com/about?x=1#frag".toList) =
      normalizeUrl "https://example.com/about?x=1#frag".toList :=
  C9_theorem "https://example.com/about?x=1#frag".toList (by decide)

/-- C10: in every `crawl_site` run the dequeued URLs are pairwise
distinct and Visited grows by exactly one per dequeue; since the
skip-if-visited check at lines 54-55 fires exactly when a URL is dequeued
a second time or was already visited, it never fires: the frontier never
holds duplicates and never holds a visited URL. -/
theorem C10_theorem (o : Oracle) (seed : Url) (fuel : Nat) (st : CrawlState)
    (evs : List Event) (h : crawl_site o seed fuel = some (st, evs)) :
    (dequeuedUrls evs).Nodup ∧ st.visited.length = (dequeuedUrls evs).length := by
  rw [crawl_site] at h
  obtain ⟨hnd, _, hlen⟩ := crawlLoop_dequeues o (urlparse seed).netloc fuel
    ⟨[], [], [seed]⟩ st evs (List.nodup_singleton seed) (by simp) h
  exact ⟨hnd, by simpa using hlen⟩

theorem C10_witness :
    (dequeuedUrls [Event.dequeue seedEx, Event.fetch seedEx, Event.fetch seedEx,
      Event.sleep]).Nodup ∧
    (⟨[seedEx], [seedEx], []⟩ : CrawlState).visited.length =
      (dequeuedUrls [Event.dequeue seedEx, Event.fetch seedEx, Event.fetch seedEx,
        Event.sleep]).length :=
  C10_theorem oracleOk seedEx 1 ⟨[seedEx], [seedEx], []⟩
    [Event.dequeue seedEx, Event.fetch seedEx, Event.fetch seedEx, Event.sleep] (by decide)
